import Mathlib

/-!
Verification of the PathWire protocol core.

This file gives a shallow embedding of the PathWire repository's core
components and proves the specified properties about them:

* `ring_buffer` — the fixed-capacity single-producer/single-consumer FIFO
  from `Inc/core/ring_buffer.h`.  The C++ backing array `T* buffer` is
  modelled as a total function `Nat → T` (only indices below
  `buffer_size` are ever accessed, which is itself proved below);
  `uint16_t` indices are modelled as `Nat` (all reachable index values
  stay below `buffer_size ≤ 65535`, so no wrap-around is lost).
* `cmndParser` (C++ `cmnd_parser`) — the framing state machine from `cmnd_parser.cpp`.
* `cmnd_sender` — the frame encoder from `cmnd_sender.cpp`.
* `cmnd_executer` — the dispatcher from `cmnd_executer.cpp`.

C strings are modelled as `List Char` holding the characters before the
terminating NUL.  `float` arithmetic in the encoder is modelled over `ℚ`
(exact arithmetic), keeping the source's exact sequence of operations.
-/

/-! ## Bounded queue (`ring_buffer.h`) -/

structure ring_buffer (T : Type) where
  buffer : Nat → T
  buffer_size : Nat
  prd : Nat
  cns : Nat

/-- Constructor: `ring_buffer(T* buffer, uint16_t bufferSize)` sets
`prd = 0`, `cns = 0`. -/
def ring_buffer.make {T : Type} (buffer : Nat → T) (bufferSize : Nat) : ring_buffer T :=
  ⟨buffer, bufferSize, 0, 0⟩

/-- `bool push(const T& item)`: fails when `(prd + 1) % buffer_size == cns`,
otherwise writes `buffer[prd % buffer_size] = item` and advances `prd`. -/
def ring_buffer.push {T : Type} (q : ring_buffer T) (item : T) : ring_buffer T × Bool :=
  let next := (q.prd + 1) % q.buffer_size
  if next = q.cns then
    (q, false)
  else
    ({ q with
        buffer := fun j => if j = q.prd % q.buffer_size then item else q.buffer j,
        prd := next },
     true)

/-- `bool pop(T& out)`: fails when `cns == prd`, otherwise returns
`buffer[cns % buffer_size]` and advances `cns`. -/
def ring_buffer.pop {T : Type} (q : ring_buffer T) : ring_buffer T × Option T :=
  if q.cns = q.prd then
    (q, none)
  else
    ({ q with cns := (q.cns + 1) % q.buffer_size },
     some (q.buffer (q.cns % q.buffer_size)))

/-- Index invariant maintained by every queue operation. -/
def ring_buffer.Inv {T : Type} (q : ring_buffer T) : Prop :=
  1 < q.buffer_size ∧ q.prd < q.buffer_size ∧ q.cns < q.buffer_size

instance {T : Type} (q : ring_buffer T) : Decidable q.Inv := by
  unfold ring_buffer.Inv; infer_instance

/-- Number of live elements: `(prd + C - cns) % C`. -/
def ring_buffer.size_used {T : Type} (q : ring_buffer T) : Nat :=
  (q.prd + q.buffer_size - q.cns) % q.buffer_size

/-- Abstraction: the queued elements in FIFO order, oldest first. -/
def ring_buffer.contents {T : Type} (q : ring_buffer T) : List T :=
  (List.range q.size_used).map (fun i => q.buffer ((q.cns + i) % q.buffer_size))

theorem ring_buffer.make_Inv {T : Type} (buffer : Nat → T) (C : Nat) (hC : 1 < C) :
    (ring_buffer.make buffer C).Inv := by
  refine ⟨hC, ?_, ?_⟩ <;> simp [ring_buffer.make] <;> omega

theorem ring_buffer.contents_make {T : Type} (buffer : Nat → T) (C : Nat) :
    (ring_buffer.make buffer C).contents = [] := by
  simp [ring_buffer.contents, ring_buffer.size_used, ring_buffer.make]

theorem ring_buffer.size_used_eq {T : Type} (q : ring_buffer T) (h : q.Inv) :
    q.size_used = if q.cns ≤ q.prd then q.prd - q.cns else q.prd + q.buffer_size - q.cns := by
  obtain ⟨h1, h2, h3⟩ := h
  unfold ring_buffer.size_used
  by_cases hc : q.cns ≤ q.prd
  · rw [if_pos hc]
    have he : q.prd + q.buffer_size - q.cns = (q.prd - q.cns) + q.buffer_size := by omega
    rw [he, Nat.add_mod_right, Nat.mod_eq_of_lt (by omega)]
  · rw [if_neg hc, Nat.mod_eq_of_lt (by omega)]

theorem ring_buffer.size_used_lt {T : Type} (q : ring_buffer T) (h : q.Inv) :
    q.size_used < q.buffer_size := by
  have := ring_buffer.size_used_eq q h
  obtain ⟨h1, h2, h3⟩ := h
  rw [this]; split <;> omega

/-- `push` returns `false` exactly on the full condition, leaving the state
untouched. -/
theorem ring_buffer.push_fail_iff {T : Type} (q : ring_buffer T) (item : T) :
    (q.push item).2 = false ↔ (q.prd + 1) % q.buffer_size = q.cns := by
  unfold ring_buffer.push
  by_cases h : (q.prd + 1) % q.buffer_size = q.cns <;> simp [h]

theorem ring_buffer.push_fail_state {T : Type} (q : ring_buffer T) (item : T)
    (h : (q.push item).2 = false) : (q.push item).1 = q := by
  unfold ring_buffer.push at *
  by_cases hc : (q.prd + 1) % q.buffer_size = q.cns <;> simp [hc] at *

/-- `pop` returns `none` exactly on the empty condition, leaving the state
untouched. -/
theorem ring_buffer.pop_fail_iff {T : Type} (q : ring_buffer T) :
    q.pop.2 = none ↔ q.cns = q.prd := by
  unfold ring_buffer.pop
  by_cases h : q.cns = q.prd <;> simp [h]

theorem ring_buffer.pop_fail_state {T : Type} (q : ring_buffer T)
    (h : q.pop.2 = none) : q.pop.1 = q := by
  unfold ring_buffer.pop at *
  by_cases hc : q.cns = q.prd <;> simp [hc] at *

/-- The full condition in terms of the abstraction: the queue holds
`buffer_size - 1` elements. -/
theorem ring_buffer.full_iff_size_used {T : Type} (q : ring_buffer T) (h : q.Inv) :
    (q.prd + 1) % q.buffer_size = q.cns ↔ q.size_used = q.buffer_size - 1 := by
  obtain ⟨h1, h2, h3⟩ := h
  rw [ring_buffer.size_used_eq q ⟨h1, h2, h3⟩]
  by_cases hp : q.prd + 1 < q.buffer_size
  · rw [Nat.mod_eq_of_lt hp]
    split <;> omega
  · have hp' : q.prd + 1 = q.buffer_size := by omega
    rw [hp', Nat.mod_self]
    split <;> omega

theorem ring_buffer.mod_small (x C : Nat) (h : x < C) : x % C = x := Nat.mod_eq_of_lt h

theorem ring_buffer.mod_wrap (x C : Nat) (h1 : C ≤ x) (h2 : x < C + C) :
    x % C = x - C := by
  rw [Nat.mod_eq_sub_mod h1, Nat.mod_eq_of_lt (by omega)]

theorem ring_buffer.mod_circ (p c C : Nat) (hp : p < C) (hc : c < C) :
    (p + C - c) % C = if c ≤ p then p - c else p + C - c := by
  split
  · rw [ring_buffer.mod_wrap _ _ (by omega) (by omega)]
    omega
  · rw [Nat.mod_eq_of_lt (by omega)]

/-- Successful `push` appends the item to the abstract contents and keeps the
invariant. -/
theorem ring_buffer.push_succ_contents {T : Type} (q : ring_buffer T) (item : T)
    (h : q.Inv) (hs : (q.push item).2 = true) :
    (q.push item).1.contents = q.contents ++ [item] ∧ (q.push item).1.Inv := by
  obtain ⟨h1, h2, h3⟩ := h
  have hnf : ¬ ((q.prd + 1) % q.buffer_size = q.cns) := by
    intro hc
    rw [show ((q.push item).2 = true ↔ ¬ (q.push item).2 = false) by simp] at hs
    exact hs ((ring_buffer.push_fail_iff q item).2 hc)
  have hsz : q.size_used = if q.cns ≤ q.prd then q.prd - q.cns
      else q.prd + q.buffer_size - q.cns := ring_buffer.size_used_eq q ⟨h1, h2, h3⟩
  have hszlt : q.size_used < q.buffer_size - 1 := by
    have hfull := ring_buffer.full_iff_size_used q ⟨h1, h2, h3⟩
    have := ring_buffer.size_used_lt q ⟨h1, h2, h3⟩
    rcases Nat.lt_or_ge q.size_used (q.buffer_size - 1) with hlt | hge
    · exact hlt
    · exact absurd (hfull.2 (by omega)) hnf
  unfold ring_buffer.push
  rw [if_neg hnf]
  constructor
  · -- contents equation
    unfold ring_buffer.contents ring_buffer.size_used
    simp only
    have hprd : q.prd % q.buffer_size = q.prd := Nat.mod_eq_of_lt h2
    -- new length is old length + 1
    have hlen : ((q.prd + 1) % q.buffer_size + q.buffer_size - q.cns) % q.buffer_size
        = q.size_used + 1 := by
      rw [hsz]
      by_cases hp : q.prd + 1 < q.buffer_size
      · have hnf' : ¬ (q.prd + 1 = q.cns) := by
          rw [Nat.mod_eq_of_lt hp] at hnf; exact hnf
        rw [Nat.mod_eq_of_lt hp,
          ring_buffer.mod_circ (q.prd + 1) q.cns q.buffer_size hp h3]
        split_ifs <;> omega
      · have hp' : q.prd + 1 = q.buffer_size := by omega
        have hc0 : 0 < q.cns := by
          rcases Nat.eq_zero_or_pos q.cns with h0 | h0
          · exfalso; apply hnf; rw [hp', Nat.mod_self, h0]
          · exact h0
        rw [hp', Nat.mod_self,
          ring_buffer.mod_circ 0 q.cns q.buffer_size (by omega) h3]
        split_ifs <;> omega
    unfold ring_buffer.size_used at hlen
    rw [hlen]
    rw [List.range_succ, List.map_append]
    have hn : (q.prd + q.buffer_size - q.cns) % q.buffer_size
        = if q.cns ≤ q.prd then q.prd - q.cns else q.prd + q.buffer_size - q.cns :=
      ring_buffer.mod_circ q.prd q.cns q.buffer_size h2 h3
    congr 1
    · -- old cells unchanged
      apply List.map_congr_left
      intro i hi
      rw [List.mem_range] at hi
      have hii : (q.cns + i) % q.buffer_size ≠ q.prd % q.buffer_size := by
        rw [hprd]
        rw [hn] at hi
        by_cases hc : q.cns ≤ q.prd
        · rw [if_pos hc] at hi
          rw [Nat.mod_eq_of_lt (by omega)]
          omega
        · rw [if_neg hc] at hi
          by_cases hlt : q.cns + i < q.buffer_size
          · rw [Nat.mod_eq_of_lt hlt]; omega
          · rw [ring_buffer.mod_wrap _ _ (by omega) (by omega)]
            omega
      simp [hii]
    · -- the new cell holds the pushed item
      have hnc : (q.cns + (q.prd + q.buffer_size - q.cns) % q.buffer_size)
          % q.buffer_size = q.prd % q.buffer_size := by
        rw [hn, hprd]
        by_cases hc : q.cns ≤ q.prd
        · rw [if_pos hc, Nat.mod_eq_of_lt (by omega)]
          omega
        · rw [if_neg hc, ring_buffer.mod_wrap _ _ (by omega) (by omega)]
          omega
      simp only [List.map_cons, List.map_nil]
      rw [hnc]
      simp
  · refine ⟨h1, ?_, h3⟩
    simp only
    exact Nat.mod_lt _ (by omega)

/-- Successful `pop` removes the head of the abstract contents and keeps the
invariant. -/
theorem ring_buffer.pop_succ_contents {T : Type} (q : ring_buffer T)
    (h : q.Inv) (x : T) (hs : q.pop.2 = some x) :
    q.contents = x :: q.pop.1.contents ∧ q.pop.1.Inv := by
  obtain ⟨h1, h2, h3⟩ := h
  have hne : ¬ (q.cns = q.prd) := by
    intro hc
    unfold ring_buffer.pop at hs
    rw [if_pos hc] at hs
    simp at hs
  have hx : x = q.buffer (q.cns % q.buffer_size) := by
    unfold ring_buffer.pop at hs
    rw [if_neg hne] at hs
    simp at hs
    exact hs.symm
  have hsz : q.size_used = if q.cns ≤ q.prd then q.prd - q.cns
      else q.prd + q.buffer_size - q.cns := ring_buffer.size_used_eq q ⟨h1, h2, h3⟩
  have hpos : 0 < q.size_used := by
    rw [hsz]; split <;> omega
  constructor
  · unfold ring_buffer.pop
    rw [if_neg hne]
    unfold ring_buffer.contents ring_buffer.size_used
    simp only
    have hlen : (q.prd + q.buffer_size - (q.cns + 1) % q.buffer_size) % q.buffer_size
        = q.size_used - 1 := by
      rw [hsz]
      by_cases hcl : q.cns + 1 < q.buffer_size
      · rw [Nat.mod_eq_of_lt hcl,
          ring_buffer.mod_circ q.prd (q.cns + 1) q.buffer_size h2 hcl]
        split_ifs <;> omega
      · have hcl' : q.cns + 1 = q.buffer_size := by omega
        have hcp : q.prd < q.cns := by omega
        rw [hcl', Nat.mod_self,
          ring_buffer.mod_circ q.prd 0 q.buffer_size h2 (by omega)]
        split_ifs <;> omega
    unfold ring_buffer.size_used at hlen
    rw [hlen]
    have hdecomp : q.size_used = (q.size_used - 1) + 1 := by omega
    unfold ring_buffer.size_used at hdecomp hpos
    rw [show (List.range ((q.prd + q.buffer_size - q.cns) % q.buffer_size))
        = List.range (((q.prd + q.buffer_size - q.cns) % q.buffer_size - 1) + 1) by
      rw [← hdecomp]]
    rw [List.range_succ_eq_map, List.map_cons, List.map_map]
    congr 1
    · rw [hx, Nat.add_zero]
    · apply List.map_congr_left
      intro i _
      simp only [Function.comp]
      have : ((q.cns + 1) % q.buffer_size + i) % q.buffer_size
          = (q.cns + 1 + i) % q.buffer_size := by
        rw [Nat.mod_add_mod]
      rw [this]
      have harg : q.cns + 1 + i = q.cns + i.succ := by omega
      rw [harg]
  · unfold ring_buffer.pop
    rw [if_neg hne]
    refine ⟨h1, h2, ?_⟩
    simp only
    exact Nat.mod_lt _ (by omega)

/-! ## Operation sequences over the queue (single producer + single consumer) -/

inductive qop (T : Type) where
  | push (v : T) : qop T
  | pop : qop T

/-- Runs a sequence of operations; returns the final queue, the list of values
accepted by successful pushes and the list of values returned by successful
pops, both in operation order. -/
def ring_buffer.runOps {T : Type} : ring_buffer T → List (qop T) → ring_buffer T × List T × List T
  | q, [] => (q, [], [])
  | q, qop.push v :: rest =>
    let r := q.push v
    let f := r.1.runOps rest
    (f.1, (if r.2 then [v] else []) ++ f.2.1, f.2.2)
  | q, qop.pop :: rest =>
    let r := q.pop
    let f := r.1.runOps rest
    (f.1, f.2.1, r.2.toList ++ f.2.2)

/-- Core FIFO invariant: popped values, followed by what is still queued,
equal the initial contents followed by the accepted pushed values. -/
theorem ring_buffer.runOps_fifo {T : Type} (ops : List (qop T)) :
    ∀ (q : ring_buffer T), q.Inv →
      (q.runOps ops).2.2 ++ (q.runOps ops).1.contents
        = q.contents ++ (q.runOps ops).2.1 ∧ (q.runOps ops).1.Inv := by
  induction ops with
  | nil => intro q hq; simpa [ring_buffer.runOps] using hq
  | cons op rest ih =>
    intro q hq
    cases op with
    | push v =>
      rcases hp : (q.push v).2 with _ | _
      · -- failed push: state unchanged
        have hst := ring_buffer.push_fail_state q v hp
        have := ih (q.push v).1 (by rw [hst]; exact hq)
        simp only [ring_buffer.runOps, hp, if_neg Bool.false_ne_true]
        rw [hst] at this ⊢
        simpa using this
      · have hc := ring_buffer.push_succ_contents q v hq hp
        have := ih (q.push v).1 hc.2
        simp only [ring_buffer.runOps, hp, if_pos rfl]
        rw [hc.1] at this
        refine ⟨?_, this.2⟩
        rw [this.1]
        simp
    | pop =>
      rcases hp : (q.pop).2 with _ | x
      · have hst := ring_buffer.pop_fail_state q hp
        have := ih (q.pop).1 (by rw [hst]; exact hq)
        simp only [ring_buffer.runOps, hp, Option.toList]
        rw [hst] at this ⊢
        simpa using this
      · have hc := ring_buffer.pop_succ_contents q hq x hp
        have := ih (q.pop).1 hc.2
        simp only [ring_buffer.runOps, hp, Option.toList]
        refine ⟨?_, this.2⟩
        simp only [List.nil_append, List.cons_append, hc.1, this.1]

/-- `pushAll` pushes the items of a list in order, stopping at the first
failing push (models a straight-line sequence of `push` calls). -/
def ring_buffer.pushAll {T : Type} : ring_buffer T → List T → ring_buffer T × Bool
  | q, [] => (q, true)
  | q, v :: vs =>
    let r := q.push v
    if r.2 then r.1.pushAll vs else (r.1, false)

theorem ring_buffer.pushAll_from_zero {T : Type} (vs : List T) :
    ∀ (q : ring_buffer T), q.Inv → q.cns = 0 → q.prd + vs.length ≤ q.buffer_size - 1 →
      (q.pushAll vs).2 = true
      ∧ (q.pushAll vs).1.prd = q.prd + vs.length
      ∧ (q.pushAll vs).1.cns = 0
      ∧ (q.pushAll vs).1.buffer_size = q.buffer_size := by
  induction vs with
  | nil => intro q hq hc hlen; simp [ring_buffer.pushAll]; omega
  | cons v vs ih =>
    intro q hq hc hlen
    obtain ⟨h1, h2, h3⟩ := hq
    simp only [List.length_cons] at hlen
    have hlt : q.prd + 1 < q.buffer_size := by omega
    have hnotfull : ¬ ((q.prd + 1) % q.buffer_size = q.cns) := by
      rw [Nat.mod_eq_of_lt hlt]; omega
    have hok : (q.push v).2 = true := by
      unfold ring_buffer.push; rw [if_neg hnotfull]
    have hfields : (q.push v).1.prd = (q.prd + 1) % q.buffer_size
        ∧ (q.push v).1.cns = q.cns ∧ (q.push v).1.buffer_size = q.buffer_size := by
      unfold ring_buffer.push; rw [if_neg hnotfull]; exact ⟨rfl, rfl, rfl⟩
    have hinv2 : (q.push v).1.Inv := by
      refine ⟨?_, ?_, ?_⟩
      · rw [hfields.2.2]; exact h1
      · rw [hfields.1, hfields.2.2, Nat.mod_eq_of_lt hlt]; omega
      · rw [hfields.2.1, hfields.2.2]; exact h3
    have hrec := ih (q.push v).1 hinv2
      (by rw [hfields.2.1]; exact hc)
      (by rw [hfields.1, hfields.2.2, Nat.mod_eq_of_lt hlt]; omega)
    obtain ⟨ha, hb, hcc, hd⟩ := hrec
    simp only [ring_buffer.pushAll, hok, if_true]
    refine ⟨ha, ?_, hcc, by rw [hd, hfields.2.2]⟩
    rw [hb, hfields.1, Nat.mod_eq_of_lt hlt]
    simp only [List.length_cons]
    omega

/-! ## Parsed frame (`cmnd_frame.h`)

The C struct holds raw pointers into the parser's work buffer; the model
represents each pointer as the corresponding offset into that buffer. -/

structure cmnd_frame where
  path : Nat
  path_len : Nat
  data : Nat
  data_len : Nat
deriving DecidableEq

/-! ## Frame parser (`cmnd_parser.h` / `cmnd_parser.cpp`) -/

inductive state_t where
  | WAIT_START
  | WAIT_P
  | WAIT_P_COLON
  | READ_PATH
  | WAIT_D
  | WAIT_D_COLON
  | READ_DATA
  | WAIT_END
  | ERROR
deriving DecidableEq

/-- Parser state.  `workBuffer` is the scratch array (modelled as a total
function; only indices below `work_buf_size` are written), `path_ptr` /
`data_ptr` model the `const char*` fields as optional offsets (`none` is the
null pointer). -/
structure cmndParser where
  workBuffer : Nat → Char
  work_buf_size : Nat
  idx : Nat
  path_ptr : Option Nat
  path_len : Nat
  data_ptr : Option Nat
  data_len : Nat
  state : state_t

/-- `void reset()`. -/
def cmndParser.reset (p : cmndParser) : cmndParser :=
  { p with
      state := state_t.WAIT_START,
      idx := 0,
      path_ptr := none,
      data_ptr := none,
      path_len := 0,
      data_len := 0 }

/-- NUL terminator written by the parser. -/
def nulChar : Char := Char.ofNat 0

/-- Single write into the work buffer. -/
def cmndParser.wbWrite (p : cmndParser) (i : Nat) (c : Char) : cmndParser :=
  { p with workBuffer := fun j => if j = i then c else p.workBuffer j }

/-- One iteration of the `while (rx_queue.pop(ch))` loop body of
`cmnd_parser::poll()`: the overflow guard followed by the state switch.
The frame queue is threaded through because a completed frame is pushed
into it. -/
def cmndParser.step (p : cmndParser) (q : ring_buffer cmnd_frame) (ch : Char) :
    cmndParser × ring_buffer cmnd_frame :=
  -- Overflow guard: the triggering byte is consumed and dropped.
  if p.idx ≥ p.work_buf_size then
    ({ p.reset with state := state_t.ERROR }, q)
  else
    match p.state with
    | state_t.WAIT_START =>
      if ch = '{' then ({ p.reset with state := state_t.WAIT_P }, q) else (p, q)
    | state_t.WAIT_P =>
      ({ p with state := if ch = 'p' then state_t.WAIT_P_COLON else state_t.ERROR }, q)
    | state_t.WAIT_P_COLON =>
      if ch = ':' then
        ({ p with state := state_t.READ_PATH, path_ptr := some p.idx }, q)
      else
        ({ p with state := state_t.ERROR }, q)
    | state_t.READ_PATH =>
      if ch = ':' then
        ({ p.wbWrite p.idx nulChar with
            idx := p.idx + 1,
            path_len := p.idx + 1 - 1,
            state := state_t.WAIT_D }, q)
      else
        ({ p.wbWrite p.idx ch with idx := p.idx + 1 }, q)
    | state_t.WAIT_D =>
      ({ p with state := if ch = 'd' then state_t.WAIT_D_COLON else state_t.ERROR }, q)
    | state_t.WAIT_D_COLON =>
      if ch = ':' then
        ({ p with state := state_t.READ_DATA, data_ptr := some p.idx }, q)
      else
        ({ p with state := state_t.ERROR }, q)
    | state_t.READ_DATA =>
      if ch = '}' then
        let p1 := { p.wbWrite p.idx nulChar with
            idx := p.idx + 1,
            data_len := p.idx + 1 - p.data_ptr.getD 0 - 1 }
        let fr : cmnd_frame :=
          ⟨p1.path_ptr.getD 0, p1.path_len, p1.data_ptr.getD 0, p1.data_len⟩
        let r := q.push fr
        if r.2 then
          (p1.reset, r.1)
        else
          ({ p1.reset with state := state_t.ERROR }, r.1)
      else
        ({ p.wbWrite p.idx ch with idx := p.idx + 1 }, q)
    | state_t.WAIT_END =>
      -- unused state; falls into the switch default, which resets
      (p.reset, q)
    | state_t.ERROR =>
      if ch = '{' then
        ({ { p with idx := 0 }.reset with state := state_t.WAIT_P }, q)
      else
        ({ p with idx := 0 }, q)

/-- `void poll()`: drains the given byte sequence (the bytes available in the
RX queue, in FIFO order), feeding each through `step`. -/
def cmndParser.poll : List Char → cmndParser → ring_buffer cmnd_frame →
    cmndParser × ring_buffer cmnd_frame
  | [], p, q => (p, q)
  | ch :: rest, p, q =>
    let r := p.step q ch
    cmndParser.poll rest r.1 r.2

/-- Reads `len` consecutive cells of a buffer starting at `off` (a frame
view's slice). -/
def readSlice (buf : Nat → Char) (off len : Nat) : List Char :=
  (List.range len).map (fun i => buf (off + i))

theorem cmndParser.poll_cons (c : Char) (rest : List Char) (p : cmndParser)
    (q : ring_buffer cmnd_frame) (p1 : cmndParser) (q1 : ring_buffer cmnd_frame)
    (h : p.step q c = (p1, q1)) :
    cmndParser.poll (c :: rest) p q = cmndParser.poll rest p1 q1 := by
  have e : cmndParser.poll (c :: rest) p q
      = cmndParser.poll rest (p.step q c).1 (p.step q c).2 := rfl
  rw [e, h]

theorem cmndParser.step_guard (p : cmndParser) (q : ring_buffer cmnd_frame) (ch : Char)
    (hg : p.work_buf_size ≤ p.idx) :
    p.step q ch = ({ p.reset with state := state_t.ERROR }, q) := by
  unfold cmndParser.step
  rw [if_pos (by omega)]

theorem cmndParser.step_wait_start_open (p : cmndParser) (q : ring_buffer cmnd_frame)
    (hst : p.state = state_t.WAIT_START) (hg : p.idx < p.work_buf_size) :
    p.step q '{' = ({ p.reset with state := state_t.WAIT_P }, q) := by
  unfold cmndParser.step
  rw [if_neg (by omega), hst]
  rfl

theorem cmndParser.step_wait_start_other (p : cmndParser) (q : ring_buffer cmnd_frame)
    (ch : Char) (hst : p.state = state_t.WAIT_START) (hg : p.idx < p.work_buf_size)
    (hch : ch ≠ '{') :
    p.step q ch = (p, q) := by
  unfold cmndParser.step
  rw [if_neg (by omega), hst]
  simp [hch]

theorem cmndParser.step_wait_p (p : cmndParser) (q : ring_buffer cmnd_frame)
    (hst : p.state = state_t.WAIT_P) (hg : p.idx < p.work_buf_size) :
    p.step q 'p' = ({ p with state := state_t.WAIT_P_COLON }, q) := by
  unfold cmndParser.step
  rw [if_neg (by omega), hst]
  rfl

theorem cmndParser.step_wait_p_colon (p : cmndParser) (q : ring_buffer cmnd_frame)
    (hst : p.state = state_t.WAIT_P_COLON) (hg : p.idx < p.work_buf_size) :
    p.step q ':' = ({ p with state := state_t.READ_PATH, path_ptr := some p.idx }, q) := by
  unfold cmndParser.step
  rw [if_neg (by omega), hst]
  rfl

theorem cmndParser.step_read_path_char (p : cmndParser) (q : ring_buffer cmnd_frame)
    (c : Char) (hst : p.state = state_t.READ_PATH) (hg : p.idx < p.work_buf_size)
    (hch : c ≠ ':') :
    p.step q c = ({ p.wbWrite p.idx c with idx := p.idx + 1 }, q) := by
  unfold cmndParser.step
  rw [if_neg (by omega), hst]
  simp [hch]

theorem cmndParser.step_read_path_colon (p : cmndParser) (q : ring_buffer cmnd_frame)
    (hst : p.state = state_t.READ_PATH) (hg : p.idx < p.work_buf_size) :
    p.step q ':' = ({ p.wbWrite p.idx nulChar with
        idx := p.idx + 1,
        path_len := p.idx + 1 - 1,
        state := state_t.WAIT_D }, q) := by
  unfold cmndParser.step
  rw [if_neg (by omega), hst]
  rfl

theorem cmndParser.step_wait_d (p : cmndParser) (q : ring_buffer cmnd_frame)
    (hst : p.state = state_t.WAIT_D) (hg : p.idx < p.work_buf_size) :
    p.step q 'd' = ({ p with state := state_t.WAIT_D_COLON }, q) := by
  unfold cmndParser.step
  rw [if_neg (by omega), hst]
  rfl

theorem cmndParser.step_wait_d_colon (p : cmndParser) (q : ring_buffer cmnd_frame)
    (hst : p.state = state_t.WAIT_D_COLON) (hg : p.idx < p.work_buf_size) :
    p.step q ':' = ({ p with state := state_t.READ_DATA, data_ptr := some p.idx }, q) := by
  unfold cmndParser.step
  rw [if_neg (by omega), hst]
  rfl

theorem cmndParser.step_read_data_char (p : cmndParser) (q : ring_buffer cmnd_frame)
    (c : Char) (hst : p.state = state_t.READ_DATA) (hg : p.idx < p.work_buf_size)
    (hch : c ≠ '}') :
    p.step q c = ({ p.wbWrite p.idx c with idx := p.idx + 1 }, q) := by
  unfold cmndParser.step
  rw [if_neg (by omega), hst]
  simp [hch]

theorem cmndParser.step_read_data_close (p : cmndParser) (q : ring_buffer cmnd_frame)
    (hst : p.state = state_t.READ_DATA) (hg : p.idx < p.work_buf_size)
    (hpush : (q.push ⟨p.path_ptr.getD 0, p.path_len, p.data_ptr.getD 0,
        p.idx + 1 - p.data_ptr.getD 0 - 1⟩).2 = true) :
    p.step q '}' = ({ p.wbWrite p.idx nulChar with
        idx := p.idx + 1,
        data_len := p.idx + 1 - p.data_ptr.getD 0 - 1 }.reset,
      (q.push ⟨p.path_ptr.getD 0, p.path_len, p.data_ptr.getD 0,
        p.idx + 1 - p.data_ptr.getD 0 - 1⟩).1) := by
  unfold cmndParser.step
  rw [if_neg (by omega), hst]
  simp [cmndParser.wbWrite, hpush]

theorem cmndParser.step_error_other (p : cmndParser) (q : ring_buffer cmnd_frame)
    (ch : Char) (hst : p.state = state_t.ERROR) (hg : p.idx < p.work_buf_size)
    (hch : ch ≠ '{') :
    p.step q ch = ({ p with idx := 0 }, q) := by
  unfold cmndParser.step
  rw [if_neg (by omega), hst]
  simp [hch]

theorem cmndParser.step_error_open (p : cmndParser) (q : ring_buffer cmnd_frame)
    (hst : p.state = state_t.ERROR) (hg : p.idx < p.work_buf_size) :
    p.step q '{' = ({ { p with idx := 0 }.reset with state := state_t.WAIT_P }, q) := by
  unfold cmndParser.step
  rw [if_neg (by omega), hst]
  rfl

/-- Running a sequence of non-terminator bytes through `READ_PATH` or
`READ_DATA` appends them to the work buffer. -/
theorem cmndParser.read_run (term : Char) (s : List Char) :
    ∀ (p : cmndParser) (q : ring_buffer cmnd_frame) (rest : List Char),
      ((p.state = state_t.READ_PATH ∧ term = ':')
        ∨ (p.state = state_t.READ_DATA ∧ term = '}')) →
      (∀ c ∈ s, c ≠ term) →
      p.idx + s.length ≤ p.work_buf_size →
      ∃ p',
        cmndParser.poll (s ++ rest) p q = cmndParser.poll rest p' q
        ∧ p'.state = p.state
        ∧ p'.idx = p.idx + s.length
        ∧ p'.work_buf_size = p.work_buf_size
        ∧ p'.path_ptr = p.path_ptr ∧ p'.path_len = p.path_len
        ∧ p'.data_ptr = p.data_ptr ∧ p'.data_len = p.data_len
        ∧ (∀ j, j < p.idx → p'.workBuffer j = p.workBuffer j)
        ∧ (∀ k, (hk : k < s.length) → p'.workBuffer (p.idx + k) = s.get ⟨k, hk⟩) := by
  induction s with
  | nil =>
    intro p q rest _ _ _
    refine ⟨p, ?_, rfl, by simp, rfl, rfl, rfl, rfl, rfl, ?_, ?_⟩
    · rw [List.nil_append]
    · intro j _; rfl
    · intro k hk; simp at hk
  | cons c s ih =>
    intro p q rest hstate hs hcap
    have hc : c ≠ term := hs c (List.mem_cons_self c s)
    have hg : p.idx < p.work_buf_size := by
      simp only [List.length_cons] at hcap; omega
    have hstep : p.step q c = ({ p.wbWrite p.idx c with idx := p.idx + 1 }, q) := by
      rcases hstate with ⟨h1, h2⟩ | ⟨h1, h2⟩
      · exact cmndParser.step_read_path_char p q c h1 hg (h2 ▸ hc)
      · exact cmndParser.step_read_data_char p q c h1 hg (h2 ▸ hc)
    set p1 : cmndParser := { p.wbWrite p.idx c with idx := p.idx + 1 } with hp1
    have hstate1 : ((p1.state = state_t.READ_PATH ∧ term = ':')
        ∨ (p1.state = state_t.READ_DATA ∧ term = '}')) := by
      rcases hstate with ⟨h1, h2⟩ | ⟨h1, h2⟩
      · exact Or.inl ⟨h1, h2⟩
      · exact Or.inr ⟨h1, h2⟩
    have hcap1 : p1.idx + s.length ≤ p1.work_buf_size := by
      show p.idx + 1 + s.length ≤ p.work_buf_size
      simp only [List.length_cons] at hcap; omega
    obtain ⟨p', hpoll, hst', hidx', hwbs', hpp', hpl', hdp', hdl', hpres, hslice⟩ :=
      ih p1 q rest hstate1 (fun x hx => hs x (List.mem_cons_of_mem c hx)) hcap1
    refine ⟨p', ?_, hst', ?_, hwbs', hpp', hpl', hdp', hdl', ?_, ?_⟩
    · rw [List.cons_append, cmndParser.poll_cons c (s ++ rest) p q p1 q hstep, hpoll]
    · rw [hidx']
      show p.idx + 1 + s.length = p.idx + (c :: s).length
      simp only [List.length_cons]; omega
    · intro j hj
      rw [hpres j (by show j < p.idx + 1; omega)]
      show (if j = p.idx then c else p.workBuffer j) = p.workBuffer j
      rw [if_neg (by omega)]
    · intro k hk
      cases k with
      | zero =>
        have h0 : p.idx + 0 < p1.idx := by show p.idx + 0 < p.idx + 1; omega
        rw [Nat.add_zero] at h0 ⊢
        rw [hpres p.idx (by show p.idx < p.idx + 1; omega)]
        show (if p.idx = p.idx then c else p.workBuffer p.idx) = _
        rw [if_pos rfl]
        rfl
      | succ k =>
        have hk' : k < s.length := by
          simp only [List.length_cons] at hk; omega
        have harg : p.idx + (k + 1) = p1.idx + k := by
          show p.idx + (k + 1) = p.idx + 1 + k; omega
        rw [harg, hslice k hk']
        rfl

/-- In the `ERROR` state every byte other than `'{'` is ignored (only the
write index is forced to zero). -/
theorem cmndParser.error_run (s : List Char) :
    ∀ (p : cmndParser) (q : ring_buffer cmnd_frame) (rest : List Char),
      p.state = state_t.ERROR →
      p.idx = 0 →
      0 < p.work_buf_size →
      (∀ c ∈ s, c ≠ '{') →
      ∃ p',
        cmndParser.poll (s ++ rest) p q = cmndParser.poll rest p' q
        ∧ p'.state = state_t.ERROR
        ∧ p'.idx = 0
        ∧ p'.work_buf_size = p.work_buf_size := by
  induction s with
  | nil =>
    intro p q rest hst hidx _ _
    exact ⟨p, by rw [List.nil_append], hst, hidx, rfl⟩
  | cons c s ih =>
    intro p q rest hst hidx hpos hs
    have hstep : p.step q c = ({ p with idx := 0 }, q) :=
      cmndParser.step_error_other p q c hst (by omega) (hs c (List.mem_cons_self c s))
    obtain ⟨p', hpoll, h1, h2, h3⟩ :=
      ih { p with idx := 0 } q rest hst rfl hpos (fun x hx => hs x (List.mem_cons_of_mem c hx))
    exact ⟨p', by rw [List.cons_append, cmndParser.poll_cons c (s ++ rest) p q _ q hstep, hpoll],
      h1, h2, h3⟩

theorem readSlice_eq (l : List Char) :
    ∀ (buf : Nat → Char) (off : Nat),
      (∀ k, (hk : k < l.length) → buf (off + k) = l.get ⟨k, hk⟩) →
      readSlice buf off l.length = l := by
  induction l with
  | nil => intro buf off _; simp [readSlice]
  | cons c l ih =>
    intro buf off h
    have hhead : buf off = c := by
      have := h 0 (by simp)
      simpa using this
    have htail : readSlice buf (off + 1) l.length = l := by
      apply ih
      intro k hk
      have := h (k + 1) (by simp only [List.length_cons]; omega)
      rw [show off + (k + 1) = off + 1 + k by omega] at this
      simpa using this
    unfold readSlice at *
    simp only [List.length_cons]
    rw [List.range_succ_eq_map, List.map_cons, List.map_map]
    have h1 : buf (off + 0) = c := by
      rw [Nat.add_zero]; exact hhead
    have h2 : List.map ((fun i => buf (off + i)) ∘ Nat.succ) (List.range l.length)
        = List.map (fun i => buf (off + 1 + i)) (List.range l.length) := by
      apply List.map_congr_left
      intro i _
      show buf (off + Nat.succ i) = buf (off + 1 + i)
      exact congrArg buf (by omega)
    rw [h1, h2, htail]

/-- Parsing one well-formed frame body: starting in `WAIT_P` with write index
0 (the configuration produced by consuming `'{'`), the byte sequence
`p:<path>:d:<data>}` is consumed, exactly one frame is queued, and the parser
returns to `WAIT_START`. -/
theorem cmndParser.frame_run (P D : List Char) (p : cmndParser)
    (q : ring_buffer cmnd_frame)
    (hstate : p.state = state_t.WAIT_P) (hidx : p.idx = 0)
    (hP : ∀ c ∈ P, c ≠ ':') (hD : ∀ c ∈ D, c ≠ '}')
    (hcap : P.length + D.length + 2 ≤ p.work_buf_size)
    (hq : q.Inv) (hnf : ¬ ((q.prd + 1) % q.buffer_size = q.cns)) :
    ∃ p' q',
      cmndParser.poll ('p' :: ':' :: (P ++ ':' :: 'd' :: ':' :: (D ++ ['}']))) p q
        = (p', q')
      ∧ p'.state = state_t.WAIT_START ∧ p'.idx = 0
      ∧ p'.work_buf_size = p.work_buf_size
      ∧ q'.contents = q.contents ++ [⟨0, P.length, P.length + 1, D.length⟩]
      ∧ q'.Inv
      ∧ readSlice p'.workBuffer 0 P.length = P
      ∧ readSlice p'.workBuffer (P.length + 1) D.length = D := by
  have hg0 : p.idx < p.work_buf_size := by omega
  -- step 'p'
  have s1 := cmndParser.step_wait_p p q hstate hg0
  -- step ':' entering READ_PATH
  have s2 := cmndParser.step_wait_p_colon { p with state := state_t.WAIT_P_COLON } q rfl
    (by show p.idx < p.work_buf_size; omega)
  -- run the path characters
  obtain ⟨pC, hpollC, hstC, hidxC, hwbsC, hppC, hplC, hdpC, hdlC, hpresC, hsliceC⟩ :=
    cmndParser.read_run ':' P
      { p with state := state_t.READ_PATH, path_ptr := some p.idx } q
      (':' :: 'd' :: ':' :: (D ++ ['}'])) (Or.inl ⟨rfl, rfl⟩) hP
      (by show p.idx + P.length ≤ p.work_buf_size; omega)
  have hidxC0 : pC.idx = P.length := by
    rw [hidxC]; show p.idx + P.length = P.length; omega
  have hwbsC0 : pC.work_buf_size = p.work_buf_size := hwbsC
  have hsliceC0 : ∀ k, (hk : k < P.length) → pC.workBuffer k = P.get ⟨k, hk⟩ := by
    intro k hk
    have := hsliceC k hk
    rwa [show ({ p with state := state_t.READ_PATH, path_ptr := some p.idx } : cmndParser).idx
        + k = k by show p.idx + k = k; omega] at this
  -- step ':' terminating the path
  have s3 := cmndParser.step_read_path_colon pC q hstC
    (by rw [hidxC0, hwbsC0]; omega)
  -- step 'd'
  have s4 := cmndParser.step_wait_d
    { pC.wbWrite pC.idx nulChar with
        idx := pC.idx + 1, path_len := pC.idx + 1 - 1, state := state_t.WAIT_D } q rfl
    (by show pC.idx + 1 < pC.work_buf_size; rw [hidxC0, hwbsC0]; omega)
  -- step ':' entering READ_DATA
  have s5 := cmndParser.step_wait_d_colon
    { { pC.wbWrite pC.idx nulChar with
        idx := pC.idx + 1, path_len := pC.idx + 1 - 1, state := state_t.WAIT_D }
      with state := state_t.WAIT_D_COLON } q rfl
    (by show pC.idx + 1 < pC.work_buf_size; rw [hidxC0, hwbsC0]; omega)
  -- run the data characters
  obtain ⟨pG, hpollG, hstG, hidxG, hwbsG, hppG, hplG, hdpG, hdlG, hpresG, hsliceG⟩ :=
    cmndParser.read_run '}' D
      { { { pC.wbWrite pC.idx nulChar with
            idx := pC.idx + 1, path_len := pC.idx + 1 - 1, state := state_t.WAIT_D }
          with state := state_t.WAIT_D_COLON }
        with state := state_t.READ_DATA, data_ptr := some (pC.idx + 1) } q ['}']
      (Or.inr ⟨rfl, rfl⟩) hD
      (by show pC.idx + 1 + D.length ≤ pC.work_buf_size; rw [hidxC0, hwbsC0]; omega)
  have hidxG0 : pG.idx = P.length + 1 + D.length := by
    rw [hidxG]; show pC.idx + 1 + D.length = _; rw [hidxC0]
  have hwbsG0 : pG.work_buf_size = p.work_buf_size := by
    rw [hwbsG]; show pC.work_buf_size = _; exact hwbsC0
  have hppG0 : pG.path_ptr = some 0 := by
    rw [hppG]; show pC.path_ptr = some 0
    rw [hppC]; show some p.idx = some 0; rw [hidx]
  have hplG0 : pG.path_len = P.length := by
    rw [hplG]; show pC.idx + 1 - 1 = P.length; omega
  have hdpG0 : pG.data_ptr = some (P.length + 1) := by
    rw [hdpG]; show some (pC.idx + 1) = _; rw [hidxC0]
  -- contents of the work buffer after the data run
  have hwbG_path : ∀ k, (hk : k < P.length) → pG.workBuffer k = P.get ⟨k, hk⟩ := by
    intro k hk
    have hpre := hpresG k (by show k < pC.idx + 1; rw [hidxC0]; omega)
    rw [hpre]
    show (if k = pC.idx then nulChar else pC.workBuffer k) = _
    rw [if_neg (by rw [hidxC0]; omega)]
    exact hsliceC0 k hk
  have hwbG_data : ∀ k, (hk : k < D.length) → pG.workBuffer (P.length + 1 + k)
      = D.get ⟨k, hk⟩ := by
    intro k hk
    have hG := hsliceG k hk
    rw [show P.length + 1 + k = pC.idx + 1 + k by rw [hidxC0]]
    exact hG
  -- the completed frame and its push
  have hfr : (⟨pG.path_ptr.getD 0, pG.path_len, pG.data_ptr.getD 0,
      pG.idx + 1 - pG.data_ptr.getD 0 - 1⟩ : cmnd_frame)
      = ⟨0, P.length, P.length + 1, D.length⟩ := by
    rw [hppG0, hplG0, hdpG0, hidxG0]
    show (⟨0, P.length, P.length + 1, P.length + 1 + D.length + 1 - (P.length + 1) - 1⟩
      : cmnd_frame) = _
    congr 1
    omega
  have hpush : (q.push ⟨pG.path_ptr.getD 0, pG.path_len, pG.data_ptr.getD 0,
      pG.idx + 1 - pG.data_ptr.getD 0 - 1⟩).2 = true := by
    rcases hb : (q.push ⟨pG.path_ptr.getD 0, pG.path_len, pG.data_ptr.getD 0,
        pG.idx + 1 - pG.data_ptr.getD 0 - 1⟩).2 with _ | _
    · exact absurd ((ring_buffer.push_fail_iff q _).1 hb) hnf
    · rfl
  have s6 := cmndParser.step_read_data_close pG q hstG
    (by rw [hidxG0, hwbsG0]; omega) hpush
  -- assemble the poll chain
  refine ⟨({ pG.wbWrite pG.idx nulChar with
      idx := pG.idx + 1,
      data_len := pG.idx + 1 - pG.data_ptr.getD 0 - 1 } : cmndParser).reset,
    (q.push ⟨pG.path_ptr.getD 0, pG.path_len, pG.data_ptr.getD 0,
      pG.idx + 1 - pG.data_ptr.getD 0 - 1⟩).1, ?_, ?_, ?_, ?_, ?_, ?_, ?_, ?_⟩
  · rw [cmndParser.poll_cons _ _ _ _ _ _ s1,
      cmndParser.poll_cons _ _ _ _ _ _ s2, hpollC,
      cmndParser.poll_cons _ _ _ _ _ _ s3,
      cmndParser.poll_cons _ _ _ _ _ _ s4,
      cmndParser.poll_cons _ _ _ _ _ _ s5, hpollG,
      cmndParser.poll_cons _ _ _ _ _ _ s6]
    rfl
  · rfl
  · rfl
  · show ({ pG.wbWrite pG.idx nulChar with
        idx := pG.idx + 1,
        data_len := pG.idx + 1 - pG.data_ptr.getD 0 - 1 } : cmndParser).work_buf_size
      = p.work_buf_size
    exact hwbsG0
  · exact ((ring_buffer.push_succ_contents q _ hq hpush).1).trans (by rw [hfr])
  · exact (ring_buffer.push_succ_contents q _ hq hpush).2
  · apply readSlice_eq
    intro k hk
    show (if 0 + k = pG.idx then nulChar else pG.workBuffer (0 + k)) = _
    rw [if_neg (by rw [hidxG0]; omega), Nat.zero_add]
    exact hwbG_path k hk
  · apply readSlice_eq
    intro k hk
    show (if P.length + 1 + k = pG.idx then nulChar else pG.workBuffer (P.length + 1 + k)) = _
    rw [if_neg (by rw [hidxG0]; omega)]
    exact hwbG_data k hk

/-! ## Frame encoder (`cmnd_sender.cpp`)

The sender pushes bytes into the TX `ring_buffer<uint8_t>` (modelled as
`ring_buffer Char`).  `notify_tx_ready()` only signals the transport (a
registered callback, out of the core's data path) and has no effect on the
queue, so it is not modelled.  Each `if (!push_xxx(...)) return false;`
chain is modelled by `sendBind`, which short-circuits on failure. -/

def sendBind (r : ring_buffer Char × Bool)
    (f : ring_buffer Char → ring_buffer Char × Bool) : ring_buffer Char × Bool :=
  match r with
  | (q, false) => (q, false)
  | (q, true) => f q

/-- `bool push_char(char c)`. -/
def cmnd_sender.push_char (q : ring_buffer Char) (c : Char) : ring_buffer Char × Bool :=
  q.push c

/-- `bool push_string(const char* s)`: pushes characters until the NUL. -/
def cmnd_sender.push_string (q : ring_buffer Char) : List Char → ring_buffer Char × Bool
  | [] => (q, true)
  | c :: cs =>
    sendBind (cmnd_sender.push_char q c) (fun q1 => cmnd_sender.push_string q1 cs)

/-- Digit character `'0' + d`. -/
def digitChar : Nat → Char
  | 0 => '0' | 1 => '1' | 2 => '2' | 3 => '3' | 4 => '4'
  | 5 => '5' | 6 => '6' | 7 => '7' | 8 => '8' | 9 => '9'
  | _ => '*'

/-- The `while (v > 0) { buf[i++] = '0' + (v % 10); v /= 10; }` loop of
`push_int`, producing the digit characters least-significant first.  The
fuel mirrors the 12-byte `buf`; 12 iterations cover every `int32`
magnitude. -/
def cmnd_sender.pushIntLoopF : Nat → Nat → List Char
  | 0, _ => []
  | fuel + 1, v =>
    if v = 0 then [] else digitChar (v % 10) :: cmnd_sender.pushIntLoopF fuel (v / 10)

/-- `bool push_int(int32_t v)`. -/
def cmnd_sender.push_int (q : ring_buffer Char) (v : Int) : ring_buffer Char × Bool :=
  if v = -2147483648 then
    cmnd_sender.push_string q ("-2147483648".toList)
  else if v = 0 then
    cmnd_sender.push_char q '0'
  else
    let negative := v < 0
    let buf := cmnd_sender.pushIntLoopF 12 v.natAbs
    let buf := if negative then buf ++ ['-'] else buf
    -- `while (i--) push_char(buf[i])` emits the accumulated buffer in reverse
    cmnd_sender.push_string q buf.reverse

/-- `bool begin_frame(const char* path)`. -/
def cmnd_sender.begin_frame (q : ring_buffer Char) (path : List Char) :
    ring_buffer Char × Bool :=
  sendBind (cmnd_sender.push_char q '{') (fun q =>
  sendBind (cmnd_sender.push_char q 'p') (fun q =>
  sendBind (cmnd_sender.push_char q ':') (fun q =>
  sendBind (cmnd_sender.push_string q path) (fun q =>
  sendBind (cmnd_sender.push_char q ':') (fun q =>
  sendBind (cmnd_sender.push_char q 'd') (fun q =>
  cmnd_sender.push_char q ':'))))))

/-- `bool end_frame()`. -/
def cmnd_sender.end_frame (q : ring_buffer Char) : ring_buffer Char × Bool :=
  cmnd_sender.push_char q '}'

/-- The `for` loop of `send_int`: the comma separator is pushed before every
value except the first (`if (i && !push_char(','))`). -/
def cmnd_sender.send_int_items (q : ring_buffer Char) : List Int → Nat →
    ring_buffer Char × Bool
  | [], _ => (q, true)
  | v :: vs, i =>
    sendBind (if i = 0 then (q, true) else cmnd_sender.push_char q ',') (fun q1 =>
    sendBind (cmnd_sender.push_int q1 v) (fun q2 =>
    cmnd_sender.send_int_items q2 vs (i + 1)))

/-- `bool send_int(const char* path, const int32_t* values, uint16_t count)`. -/
def cmnd_sender.send_int (q : ring_buffer Char) (path : List Char) (values : List Int) :
    ring_buffer Char × Bool :=
  sendBind (cmnd_sender.begin_frame q path) (fun q =>
  sendBind (cmnd_sender.send_int_items q values 0) (fun q =>
  cmnd_sender.end_frame q))

/-- The local `v` of `push_float` after the sign branch (`v = -v` when
negative). -/
def absQ (v0 : ℚ) : ℚ := if v0 < 0 then -v0 else v0

/-- `int32_t int_part = (int32_t)v;` (truncation of a non-negative value is
the floor). -/
def int_partQ (v0 : ℚ) : Int := ⌊absQ v0⌋

/-- `float frac = v - (float)int_part;` -/
def fracQ (v0 : ℚ) : ℚ := absQ v0 - (int_partQ v0 : ℚ)

/-- `int32_t frac_part = (int32_t)(frac * 1000.0f + 0.5f);` -/
def frac_part_rawQ (v0 : ℚ) : Int := ⌊fracQ v0 * 1000 + 1/2⌋

/-- `frac_part` after the carry branch `if (frac_part >= 1000) frac_part = 0;`
(the accompanying `int_part++` touches a local that was already pushed, so
it never reaches the output). -/
def frac_partQ (v0 : ℚ) : Int :=
  if frac_part_rawQ v0 ≥ 1000 then 0 else frac_part_rawQ v0

/-- `bool push_float(float v)`, with `float` arithmetic modelled exactly over
`ℚ` and the `(int32_t)` casts (on non-negative operands) modelled by
`Int.floor`.  The emission order is the source's: sign, integer part, `'.'`,
zero padding, fractional part — the carry test runs only after the integer
part is already in the queue. -/
def cmnd_sender.push_float (q0 : ring_buffer Char) (v0 : ℚ) : ring_buffer Char × Bool :=
  sendBind (if v0 < 0 then cmnd_sender.push_char q0 '-' else (q0, true)) (fun q =>
    sendBind (cmnd_sender.push_int q (int_partQ v0)) (fun q =>
    sendBind (cmnd_sender.push_char q '.') (fun q =>
    sendBind (if frac_partQ v0 < 100 then cmnd_sender.push_char q '0' else (q, true)) (fun q =>
    sendBind (if frac_partQ v0 < 10 then cmnd_sender.push_char q '0' else (q, true)) (fun q =>
    cmnd_sender.push_int q (frac_partQ v0))))))

/-! ### Canonical decimal rendering (specification side) -/

/-- Canonical decimal digits of a natural number, most significant first,
no leading zeros (`natDecimal 0 = "0"`). -/
def natDecimal (n : Nat) : List Char :=
  if n < 10 then [digitChar n]
  else natDecimal (n / 10) ++ [digitChar (n % 10)]
decreasing_by exact Nat.div_lt_self (by omega) (by omega)

/-- Canonical decimal rendering of an integer. -/
def intDecimal (v : Int) : List Char :=
  (if v < 0 then ['-'] else []) ++ natDecimal v.natAbs

/-- Comma-separated canonical rendering of a list of integers. -/
def renderIntsTail (vs : List Int) : List Char :=
  (vs.map (fun w => ',' :: intDecimal w)).flatten

def renderInts : List Int → List Char
  | [] => []
  | v :: vs => intDecimal v ++ renderIntsTail vs

/-! ### Emission lemmas for the encoder -/

/-- `Emits g bytes`: whenever `g` succeeds it appends exactly `bytes` to the
TX queue and preserves the queue invariant. -/
def Emits (g : ring_buffer Char → ring_buffer Char × Bool) (bytes : List Char) : Prop :=
  ∀ q : ring_buffer Char, q.Inv → (g q).2 = true →
    (g q).1.contents = q.contents ++ bytes ∧ (g q).1.Inv

theorem emits_push_char (c : Char) : Emits (fun q => cmnd_sender.push_char q c) [c] := by
  intro q hq hs
  exact ring_buffer.push_succ_contents q c hq hs

theorem emits_pure : Emits (fun q => (q, true)) [] := by
  intro q hq _
  exact ⟨by simp, hq⟩

theorem emits_bind (g1 : ring_buffer Char → ring_buffer Char × Bool)
    (g2 : ring_buffer Char → ring_buffer Char × Bool) (b1 b2 : List Char)
    (h1 : Emits g1 b1) (h2 : Emits g2 b2) :
    Emits (fun q => sendBind (g1 q) g2) (b1 ++ b2) := by
  intro q hq hs
  have hs' : (sendBind (g1 q) g2).2 = true := hs
  show (sendBind (g1 q) g2).1.contents = q.contents ++ (b1 ++ b2)
    ∧ (sendBind (g1 q) g2).1.Inv
  obtain ⟨q1, b, hg⟩ : ∃ q1 b, g1 q = (q1, b) := ⟨(g1 q).1, (g1 q).2, rfl⟩
  rw [hg] at hs' ⊢
  cases b with
  | false =>
    simp [sendBind] at hs'
  | true =>
    have e1 : q1.contents = q.contents ++ b1 ∧ q1.Inv := by
      have h' := h1 q hq (by rw [hg])
      rw [hg] at h'
      exact h'
    have e2 := h2 q1 e1.2 hs'
    show (g2 q1).1.contents = q.contents ++ (b1 ++ b2) ∧ (g2 q1).1.Inv
    exact ⟨by rw [e2.1, e1.1, List.append_assoc], e2.2⟩

theorem emits_congr (g : ring_buffer Char → ring_buffer Char × Bool)
    (b1 b2 : List Char) (h : Emits g b1) (he : b1 = b2) : Emits g b2 := he ▸ h

theorem emits_push_string (s : List Char) :
    Emits (fun q => cmnd_sender.push_string q s) s := by
  induction s with
  | nil => intro q hq _; exact ⟨by simp [cmnd_sender.push_string], hq⟩
  | cons c cs ih =>
    have := emits_bind (fun q => cmnd_sender.push_char q c)
      (fun q1 => cmnd_sender.push_string q1 cs) [c] cs (emits_push_char c) ih
    exact emits_congr _ _ _ this rfl

theorem pushIntLoopF_zero (fuel : Nat) : cmnd_sender.pushIntLoopF fuel 0 = [] := by
  cases fuel <;> rfl

theorem pushIntLoopF_reverse (fuel : Nat) :
    ∀ v, v ≠ 0 → v < 10 ^ fuel →
      (cmnd_sender.pushIntLoopF fuel v).reverse = natDecimal v := by
  induction fuel with
  | zero => intro v hv hb; simp at hb; omega
  | succ fuel ih =>
    intro v hv hb
    rw [show cmnd_sender.pushIntLoopF (fuel + 1) v
        = if v = 0 then [] else digitChar (v % 10) :: cmnd_sender.pushIntLoopF fuel (v / 10)
      from rfl]
    rw [if_neg hv, List.reverse_cons]
    by_cases hsmall : v < 10
    · have hdiv : v / 10 = 0 := by omega
      rw [hdiv, pushIntLoopF_zero, natDecimal]
      rw [if_pos hsmall, Nat.mod_eq_of_lt hsmall]
      rfl
    · have hdiv0 : v / 10 ≠ 0 := by omega
      have hpow : 10 ^ (fuel + 1) = 10 ^ fuel * 10 := pow_succ 10 fuel
      rw [hpow] at hb
      have hdivlt : v / 10 < 10 ^ fuel := by
        rw [Nat.div_lt_iff_lt_mul (by omega)]
        omega
      rw [ih (v / 10) hdiv0 hdivlt]
      conv_rhs => rw [natDecimal]
      rw [if_neg (by omega)]

theorem digitChar_ne (k : Nat) (hk : k < 10) :
    digitChar k ≠ '}' ∧ digitChar k ≠ ':' ∧ digitChar k ≠ '{' ∧ digitChar k ≠ ',' := by
  interval_cases k <;> exact ⟨by decide, by decide, by decide, by decide⟩

theorem natDecimal_chars (n : Nat) :
    ∀ c ∈ natDecimal n, c ≠ '}' ∧ c ≠ ':' ∧ c ≠ '{' ∧ c ≠ ',' := by
  induction n using Nat.strong_induction_on with
  | _ n ih =>
    intro c hc
    rw [natDecimal] at hc
    by_cases hsmall : n < 10
    · rw [if_pos hsmall] at hc
      simp at hc
      subst hc
      exact digitChar_ne n hsmall
    · rw [if_neg hsmall] at hc
      rcases List.mem_append.1 hc with h | h
      · exact ih (n / 10) (Nat.div_lt_self (by omega) (by omega)) c h
      · simp at h
        subst h
        exact digitChar_ne (n % 10) (Nat.mod_lt n (by omega))

theorem intDecimal_chars (v : Int) :
    ∀ c ∈ intDecimal v, c ≠ '}' ∧ c ≠ ':' ∧ c ≠ '{' ∧ c ≠ ',' := by
  intro c hc
  unfold intDecimal at hc
  rcases List.mem_append.1 hc with h | h
  · by_cases hv : v < 0
    · rw [if_pos hv] at h
      simp at h
      subst h
      exact ⟨by decide, by decide, by decide, by decide⟩
    · rw [if_neg hv] at h
      simp at h
  · exact natDecimal_chars v.natAbs c h

theorem renderIntsTail_chars (vs : List Int) :
    ∀ c ∈ renderIntsTail vs, c ≠ '}' ∧ c ≠ ':' ∧ c ≠ '{' := by
  intro c hc
  unfold renderIntsTail at hc
  rw [List.mem_flatten] at hc
  obtain ⟨l, hl, hcl⟩ := hc
  rw [List.mem_map] at hl
  obtain ⟨w, _, hw⟩ := hl
  subst hw
  rcases List.mem_cons.1 hcl with h | h
  · subst h
    exact ⟨by decide, by decide, by decide⟩
  · have := intDecimal_chars w c h
    exact ⟨this.1, this.2.1, this.2.2.1⟩

theorem renderInts_chars (vs : List Int) :
    ∀ c ∈ renderInts vs, c ≠ '}' ∧ c ≠ ':' ∧ c ≠ '{' := by
  intro c hc
  cases vs with
  | nil => simp [renderInts] at hc
  | cons v vs =>
    unfold renderInts at hc
    rcases List.mem_append.1 hc with h | h
    · have := intDecimal_chars v c h
      exact ⟨this.1, this.2.1, this.2.2.1⟩
    · exact renderIntsTail_chars vs c h

theorem intDecimal_min : intDecimal (-2147483648) = "-2147483648".toList := by
  unfold intDecimal
  rw [if_pos (by decide)]
  show '-' :: natDecimal (Int.natAbs (-2147483648)) = _
  rw [show Int.natAbs (-2147483648) = 2147483648 from rfl]
  rw [← pushIntLoopF_reverse 12 2147483648 (by decide) (by decide)]
  decide

theorem intDecimal_zero : intDecimal 0 = ['0'] := by
  unfold intDecimal
  rw [if_neg (by decide), List.nil_append]
  show natDecimal 0 = ['0']
  rw [natDecimal]
  rw [if_pos (by decide)]
  rfl

theorem emits_push_int (v : Int) (hv : v.natAbs < 10 ^ 12) :
    Emits (fun q => cmnd_sender.push_int q v) (intDecimal v) := by
  by_cases hmin : v = -2147483648
  · subst hmin
    intro q hq hs
    have hE : cmnd_sender.push_int q (-2147483648)
        = cmnd_sender.push_string q ("-2147483648".toList) := by
      unfold cmnd_sender.push_int
      rw [if_pos rfl]
    have hs' : (cmnd_sender.push_int q (-2147483648)).2 = true := hs
    rw [hE] at hs'
    show (cmnd_sender.push_int q (-2147483648)).1.contents
        = q.contents ++ intDecimal (-2147483648)
      ∧ (cmnd_sender.push_int q (-2147483648)).1.Inv
    rw [hE]
    have := emits_push_string ("-2147483648".toList) q hq hs'
    refine ⟨?_, this.2⟩
    rw [this.1, intDecimal_min]
  · by_cases h0 : v = 0
    · subst h0
      intro q hq hs
      have hE : cmnd_sender.push_int q 0 = cmnd_sender.push_char q '0' := by
        unfold cmnd_sender.push_int
        rw [if_neg hmin, if_pos rfl]
      have hs' : (cmnd_sender.push_int q 0).2 = true := hs
      rw [hE] at hs'
      show (cmnd_sender.push_int q 0).1.contents = q.contents ++ intDecimal 0
        ∧ (cmnd_sender.push_int q 0).1.Inv
      rw [hE]
      have := emits_push_char '0' q hq hs'
      refine ⟨?_, this.2⟩
      rw [this.1, intDecimal_zero]
    · have hne0 : v.natAbs ≠ 0 := by
        intro hc
        exact h0 (Int.natAbs_eq_zero.1 hc)
      have hE : ∀ q : ring_buffer Char,
          cmnd_sender.push_int q v = cmnd_sender.push_string q (intDecimal v) := by
        intro q
        unfold cmnd_sender.push_int
        rw [if_neg hmin, if_neg h0]
        show cmnd_sender.push_string q
          ((if v < 0 then cmnd_sender.pushIntLoopF 12 v.natAbs ++ ['-']
            else cmnd_sender.pushIntLoopF 12 v.natAbs).reverse) = _
        congr 1
        by_cases hneg : v < 0
        · rw [if_pos hneg, List.reverse_append,
            pushIntLoopF_reverse 12 _ hne0 hv]
          unfold intDecimal
          rw [if_pos hneg]
          rfl
        · rw [if_neg hneg, pushIntLoopF_reverse 12 _ hne0 hv]
          unfold intDecimal
          rw [if_neg hneg, List.nil_append]
      intro q hq hs
      have hs' : (cmnd_sender.push_int q v).2 = true := hs
      rw [hE q] at hs'
      show (cmnd_sender.push_int q v).1.contents = q.contents ++ intDecimal v
        ∧ (cmnd_sender.push_int q v).1.Inv
      rw [hE q]
      exact emits_push_string (intDecimal v) q hq hs'

theorem emits_send_int_items : ∀ (vs : List Int),
    (∀ v ∈ vs, v.natAbs < 10 ^ 12) → ∀ i : Nat,
    Emits (fun q => cmnd_sender.send_int_items q vs i)
      (if i = 0 then renderInts vs else renderIntsTail vs) := by
  intro vs
  induction vs with
  | nil =>
    intro _ i q hq hs
    refine ⟨?_, hq⟩
    show (cmnd_sender.send_int_items q [] i).1.contents = _
    show q.contents = _
    split <;> simp [renderInts, renderIntsTail]
  | cons v vs ih =>
    intro hb i
    have hv := hb v (List.mem_cons_self v vs)
    have hbs : ∀ w ∈ vs, w.natAbs < 10 ^ 12 :=
      fun w hw => hb w (List.mem_cons_of_mem v hw)
    have hinner : Emits (fun q2 => cmnd_sender.send_int_items q2 vs (i + 1))
        (renderIntsTail vs) :=
      emits_congr _ _ _ (ih hbs (i + 1)) (by rw [if_neg (by omega)])
    have hmid : Emits (fun q1 => sendBind (cmnd_sender.push_int q1 v)
        (fun q2 => cmnd_sender.send_int_items q2 vs (i + 1)))
        (intDecimal v ++ renderIntsTail vs) :=
      emits_bind _ _ _ _ (emits_push_int v hv) hinner
    by_cases hi : i = 0
    · subst hi
      have hwhole : Emits (fun q => cmnd_sender.send_int_items q (v :: vs) 0)
          (intDecimal v ++ renderIntsTail vs) :=
        fun q hq hs => hmid q hq hs
      refine emits_congr _ _ _ hwhole ?_
      rw [if_pos rfl]
      rfl
    · have hcomma : Emits (fun q => if i = 0 then (q, true)
          else cmnd_sender.push_char q ',') [','] := by
        intro q hq hs
        have hs' : (if i = 0 then (q, true) else cmnd_sender.push_char q ',').2 = true := hs
        rw [if_neg hi] at hs'
        show (if i = 0 then (q, true) else cmnd_sender.push_char q ',').1.contents
            = q.contents ++ [',']
          ∧ (if i = 0 then (q, true) else cmnd_sender.push_char q ',').1.Inv
        rw [if_neg hi]
        exact emits_push_char ',' q hq hs'
      have hwhole := emits_bind _ _ _ _ hcomma hmid
      have hfn : Emits (fun q => cmnd_sender.send_int_items q (v :: vs) i)
          ([','] ++ (intDecimal v ++ renderIntsTail vs)) :=
        fun q hq hs => hwhole q hq hs
      refine emits_congr _ _ _ hfn ?_
      rw [if_neg hi]
      show ',' :: (intDecimal v ++ renderIntsTail vs) = renderIntsTail (v :: vs)
      simp [renderIntsTail]

theorem emits_begin_frame (path : List Char) :
    Emits (fun q => cmnd_sender.begin_frame q path)
      ('{' :: 'p' :: ':' :: (path ++ [':', 'd', ':'])) := by
  have e := emits_bind _ _ _ _ (emits_push_char '{')
    (emits_bind _ _ _ _ (emits_push_char 'p')
      (emits_bind _ _ _ _ (emits_push_char ':')
        (emits_bind _ _ _ _ (emits_push_string path)
          (emits_bind _ _ _ _ (emits_push_char ':')
            (emits_bind _ _ _ _ (emits_push_char 'd') (emits_push_char ':'))))))
  exact emits_congr _ _ _ e (by simp)

theorem emits_send_int (path : List Char) (vs : List Int)
    (hb : ∀ v ∈ vs, v.natAbs < 10 ^ 12) :
    Emits (fun q => cmnd_sender.send_int q path vs)
      ('{' :: 'p' :: ':' :: (path ++ ':' :: 'd' :: ':' :: (renderInts vs ++ ['}']))) := by
  have hitems : Emits (fun q => cmnd_sender.send_int_items q vs 0) (renderInts vs) :=
    emits_congr _ _ _ (emits_send_int_items vs hb 0) (by rw [if_pos rfl])
  have e := emits_bind _ _ _ _ (emits_begin_frame path)
    (emits_bind _ _ _ _ hitems (emits_push_char '}'))
  exact emits_congr _ _ _ e (by simp)

/-! ## Command dispatcher (`cmnd_executer.h` / `cmnd_executer.cpp`) -/

/-- `#define MAX_CSV_ITEMS 8`. -/
def MAX_CSV_ITEMS : Nat := 8

inductive data_type where
  | NONE
  | INT
  | FLOAT
  | STRING
deriving DecidableEq

/-- C `isspace` characters (as skipped by `atoi` / `strtof`). -/
def isSpaceC (c : Char) : Bool :=
  c == ' ' || c == '\t' || c == '\n' || c == '\x0b' || c == '\x0c' || c == '\r'

def isDigitB (c : Char) : Bool :=
  decide ('0'.toNat ≤ c.toNat) && decide (c.toNat ≤ '9'.toNat)

/-- Numeric value of a digit string, most significant digit first. -/
def decListVal (l : List Char) : Nat :=
  l.foldl (fun a c => a * 10 + (c.toNat - '0'.toNat)) 0

/-- Sign-and-digits stage of the `atoi` model, applied after whitespace
skipping: optional sign, then the longest digit prefix. -/
def atoiTail : List Char → Int
  | [] => 0
  | a :: r =>
    if a = '-' then -(decListVal (r.takeWhile isDigitB) : Int)
    else if a = '+' then (decListVal (r.takeWhile isDigitB) : Int)
    else (decListVal ((a :: r).takeWhile isDigitB) : Int)

/-- Model of C `atoi`: skip whitespace, optional sign, then the longest digit
prefix; a completely unparsable field yields 0. -/
def atoiM (s : List Char) : Int := atoiTail (s.dropWhile isSpaceC)

/-- Fraction stage of the `strtof` model: consumed only when a `'.'` follows
the integer digits. -/
def strtofFrac : List Char → ℚ
  | [] => 0
  | a :: r =>
    if a = '.' then
      (decListVal (r.takeWhile isDigitB) : ℚ) / ((10 : ℚ) ^ (r.takeWhile isDigitB).length)
    else 0

/-- Magnitude part of the `strtof` model: digit prefix plus optional `'.'`
and fraction digits, exact rational value. -/
def strtofMagnitude (s : List Char) : ℚ :=
  (decListVal (s.takeWhile isDigitB) : ℚ) + strtofFrac (s.dropWhile isDigitB)

/-- Sign stage of the `strtof` model. -/
def strtofTail : List Char → ℚ
  | [] => strtofMagnitude []
  | a :: r =>
    if a = '-' then -(strtofMagnitude r)
    else if a = '+' then strtofMagnitude r
    else strtofMagnitude (a :: r)

/-- Model of C `strtof` on the decimal fixed-point notation this protocol
uses: skip whitespace, optional sign, then a magnitude. -/
def strtofM (s : List Char) : ℚ := strtofTail (s.dropWhile isSpaceC)

/-- `static data_type detect_type(const char* data)`: the scanning loop with
its `has_dot` flag. -/
def detect_type_go : List Char → Bool → data_type
  | [], has_dot => if has_dot then data_type.FLOAT else data_type.INT
  | c :: rest, has_dot =>
    if c = '.' then
      detect_type_go rest true
    else if (c.toNat < '0'.toNat ∨ '9'.toNat < c.toNat) ∧ c ≠ '-' ∧ c ≠ ',' then
      data_type.STRING
    else
      detect_type_go rest has_dot

def detect_type (data : List Char) : data_type := detect_type_go data false

/-- `while (*data && *data != ',') data++;` -/
def skipField : List Char → List Char
  | [] => []
  | c :: rest => if c = ',' then c :: rest else skipField rest

/-- `if (*data == ',') data++;` -/
def skipComma : List Char → List Char
  | ',' :: rest => rest
  | d => d

theorem skipField_length (d : List Char) : (skipField d).length ≤ d.length := by
  induction d with
  | nil => simp [skipField]
  | cons c rest ih =>
    unfold skipField
    split
    · simp
    · simp only [List.length_cons]; omega

theorem skipComma_length (d : List Char) : (skipComma d).length ≤ d.length := by
  unfold skipComma
  split <;> simp

theorem skipComma_skipField_lt (c : Char) (rest : List Char) :
    (skipComma (skipField (c :: rest))).length < (c :: rest).length := by
  unfold skipField
  split
  · rename_i hc
    subst hc
    rw [show skipComma (',' :: rest) = rest from rfl]
    simp
  · have h1 := skipField_length rest
    have h2 := skipComma_length (skipField rest)
    simp only [List.length_cons]
    omega

/-- The loop of `parse_int_csv`: parse a field with `atoi`, skip to the next
comma, skip it, bounded by `MAX_CSV_ITEMS`. -/
def parse_int_csv_go : List Char → Nat → List Int
  | [], _ => []
  | c :: rest, count =>
    if count < MAX_CSV_ITEMS then
      atoiM (c :: rest) :: parse_int_csv_go (skipComma (skipField (c :: rest))) (count + 1)
    else []
termination_by d _ => d.length
decreasing_by exact skipComma_skipField_lt c rest

/-- `static uint16_t parse_int_csv(const char* data, int32_t* out)`: returns
the parsed values; the C `count` is their number. -/
def parse_int_csv (data : List Char) : List Int := parse_int_csv_go data 0

def parse_float_csv_go : List Char → Nat → List ℚ
  | [], _ => []
  | c :: rest, count =>
    if count < MAX_CSV_ITEMS then
      strtofM (c :: rest) :: parse_float_csv_go (skipComma (skipField (c :: rest))) (count + 1)
    else []
termination_by d _ => d.length
decreasing_by exact skipComma_skipField_lt c rest

def parse_float_csv (data : List Char) : List ℚ := parse_float_csv_go data 0

/-- The scanning loop of `parse_string_csv` after `out[count++] = data`:
`cur` is the slice the last recorded pointer currently points at, `acc`
the slices already terminated by an in-place NUL.  When the loop exits,
the last recorded pointer's slice runs to the end of the data string. -/
def parse_string_csv_go : List Char → Nat → List Char → List (List Char) →
    List (List Char) × Nat
  | [], count, cur, acc => (acc ++ [cur], count)
  | c :: rest, count, cur, acc =>
    if count < MAX_CSV_ITEMS then
      if c = ',' then
        parse_string_csv_go rest (count + 1) [] (acc ++ [cur])
      else
        parse_string_csv_go rest count (cur ++ [c]) acc
    else
      (acc ++ [cur ++ (c :: rest)], count)

/-- `static uint16_t parse_string_csv(char* data, char** out)`: returns the
slices and the C `count`. -/
def parse_string_csv (data : List Char) : List (List Char) × Nat :=
  parse_string_csv_go data 1 [] []

/-- `struct path_entry` (the handler function pointer itself is outside the
model; an invocation is reported as the entry's index plus the arguments
passed, see `call_desc`). -/
structure path_entry where
  path : List Char
  expected_type : data_type

/-- A popped frame as the dispatcher sees it: `path`/`data` are the
NUL-terminated strings behind the frame's pointers, `data = none` models a
null data pointer. -/
structure frame_view where
  path : List Char
  path_len : Nat
  data : Option (List Char)
  data_len : Nat

/-- The handler invocation a dispatch produces: which arguments the
registered handler receives. -/
inductive call_desc where
  | callNone : call_desc
  | callInt : List Int → call_desc
  | callFloat : List ℚ → call_desc
  | callString : List (List Char) → call_desc
deriving DecidableEq

/-- The dispatch loop of `cmnd_executer::poll()` once a frame is popped:
linear scan from entry index `i`; `some (j, call)` means entry `j`'s handler
is invoked with `call`'s arguments, `none` means the frame is dropped with
no handler call. -/
def exec_scan : List path_entry → Nat → frame_view → Option (Nat × call_desc)
  | [], _, _ => none
  | e :: rest, i, f =>
    if f.path ≠ e.path then
      exec_scan rest (i + 1) f
    else
      match f.data with
      | none => some (i, call_desc.callNone)
      | some d =>
        if f.data_len = 0 then
          some (i, call_desc.callNone)
        else
          let t := detect_type d
          if t ≠ e.expected_type then
            none
          else
            match t with
            | data_type.INT => some (i, call_desc.callInt (parse_int_csv d))
            | data_type.FLOAT => some (i, call_desc.callFloat (parse_float_csv d))
            | data_type.STRING => some (i, call_desc.callString (parse_string_csv d).1)
            | data_type.NONE => none

/-- `void cmnd_executer::poll()`: pops at most one frame and dispatches it. -/
def cmnd_executer.poll (q : ring_buffer frame_view) (table : List path_entry) :
    ring_buffer frame_view × Option (Nat × call_desc) :=
  match q.pop with
  | (q', none) => (q', none)
  | (q', some f) => (q', exec_scan table 0 f)

/-- Allowed payload characters per the specification's classifier wording. -/
def allowedSpec (c : Char) : Prop :=
  ('0'.toNat ≤ c.toNat ∧ c.toNat ≤ '9'.toNat) ∨ c = '-' ∨ c = ',' ∨ c = '.'

instance (c : Char) : Decidable (allowedSpec c) := by
  unfold allowedSpec; infer_instance

/-- Payload classifier as worded by the specification: `String` if any
character is disallowed, otherwise `Float` when a dot occurs, else `Int`. -/
def detect_spec (d : List Char) : data_type :=
  if ∃ c ∈ d, ¬ allowedSpec c then data_type.STRING
  else if '.' ∈ d then data_type.FLOAT
  else data_type.INT

theorem detect_type_go_spec (d : List Char) : ∀ b : Bool,
    detect_type_go d b
      = if ∃ c ∈ d, ¬ allowedSpec c then data_type.STRING
        else if (b = true ∨ '.' ∈ d) then data_type.FLOAT
        else data_type.INT := by
  induction d with
  | nil =>
    intro b
    cases b <;> simp [detect_type_go]
  | cons c rest ih =>
    intro b
    unfold detect_type_go
    by_cases hdot : c = '.'
    · subst hdot
      rw [if_pos rfl, ih true]
      have hall : allowedSpec '.' := Or.inr (Or.inr (Or.inr rfl))
      have h1 : (∃ x ∈ ('.' :: rest), ¬ allowedSpec x) ↔ (∃ x ∈ rest, ¬ allowedSpec x) := by
        constructor
        · rintro ⟨x, hx, hnx⟩
          rcases List.mem_cons.1 hx with h | h
          · subst h; exact absurd hall hnx
          · exact ⟨x, h, hnx⟩
        · rintro ⟨x, hx, hnx⟩
          exact ⟨x, List.mem_cons_of_mem _ hx, hnx⟩
      by_cases hex : ∃ x ∈ rest, ¬ allowedSpec x
      · rw [if_pos hex, if_pos (h1.2 hex)]
      · rw [if_neg hex, if_neg (fun hc => hex (h1.1 hc)), if_pos (Or.inl rfl),
          if_pos (Or.inr (List.mem_cons_self '.' rest))]
    · by_cases hbad : (c.toNat < '0'.toNat ∨ '9'.toNat < c.toNat) ∧ c ≠ '-' ∧ c ≠ ','
      · rw [if_neg hdot, if_pos hbad]
        have hnal : ¬ allowedSpec c := by
          intro hal
          rcases hal with h | h | h | h
          · rcases hbad.1 with h' | h' <;> omega
          · exact hbad.2.1 h
          · exact hbad.2.2 h
          · exact hdot h
        have hex : ∃ x ∈ c :: rest, ¬ allowedSpec x :=
          ⟨c, List.mem_cons_self c rest, hnal⟩
        rw [if_pos hex]
      · rw [if_neg hdot, if_neg hbad, ih b]
        have hal : allowedSpec c := by
          by_cases h1 : c = '-'
          · exact Or.inr (Or.inl h1)
          · by_cases h2 : c = ','
            · exact Or.inr (Or.inr (Or.inl h2))
            · have h3 : ¬ (c.toNat < '0'.toNat ∨ '9'.toNat < c.toNat) :=
                fun hA => hbad ⟨hA, h1, h2⟩
              exact Or.inl (by omega)
        have h1 : (∃ x ∈ (c :: rest), ¬ allowedSpec x) ↔ (∃ x ∈ rest, ¬ allowedSpec x) := by
          constructor
          · rintro ⟨x, hx, hnx⟩
            rcases List.mem_cons.1 hx with h | h
            · subst h; exact absurd hal hnx
            · exact ⟨x, h, hnx⟩
          · rintro ⟨x, hx, hnx⟩
            exact ⟨x, List.mem_cons_of_mem _ hx, hnx⟩
        have h2 : ('.' ∈ (c :: rest)) ↔ ('.' ∈ rest) := by
          constructor
          · intro h
            rcases List.mem_cons.1 h with h | h
            · exact absurd h.symm hdot
            · exact h
          · exact List.mem_cons_of_mem c
        by_cases hex : ∃ x ∈ rest, ¬ allowedSpec x
        · rw [if_pos hex, if_pos (h1.2 hex)]
        · rw [if_neg hex, if_neg (fun hc => hex (h1.1 hc))]
          by_cases hb2 : b = true ∨ '.' ∈ rest
          · rw [if_pos hb2, if_pos (by
              rcases hb2 with h | h
              · exact Or.inl h
              · exact Or.inr (h2.2 h))]
          · rw [if_neg hb2, if_neg (by
              rintro (h | h)
              · exact hb2 (Or.inl h)
              · exact hb2 (Or.inr (h2.1 h)))]

/-- The dispatcher's lexical classifier agrees with the specification's
wording on every payload. -/
theorem detect_type_eq_spec (d : List Char) : detect_type d = detect_spec d := by
  unfold detect_type detect_spec
  rw [detect_type_go_spec d false]
  by_cases hex : ∃ c ∈ d, ¬ allowedSpec c
  · rw [if_pos hex, if_pos hex]
  · rw [if_neg hex, if_neg hex]
    by_cases hd : '.' ∈ d
    · rw [if_pos (Or.inr hd), if_pos hd]
    · rw [if_neg (by
        rintro (h | h)
        · simp at h
        · exact hd h), if_neg hd]

/-! ### Prefix parsing stops at the first comma -/

theorem takeWhile_append_not (p : Char → Bool) (c : Char) (r : List Char)
    (hc : p c = false) :
    ∀ f : List Char, (f ++ c :: r).takeWhile p = f.takeWhile p := by
  intro f
  induction f with
  | nil =>
    rw [List.nil_append, List.takeWhile_cons, hc]
    rfl
  | cons a f ih =>
    rw [List.cons_append, List.takeWhile_cons, List.takeWhile_cons, ih]

theorem dropWhile_append_not (p : Char → Bool) (c : Char) (r : List Char)
    (hc : p c = false) :
    ∀ f : List Char, (f ++ c :: r).dropWhile p = f.dropWhile p ++ c :: r := by
  intro f
  induction f with
  | nil =>
    rw [List.nil_append, List.dropWhile_cons, hc]
    rfl
  | cons a f ih =>
    rw [List.cons_append, List.dropWhile_cons, List.dropWhile_cons, ih]
    split <;> simp

theorem atoiTail_append_comma (t r : List Char) :
    atoiTail (t ++ ',' :: r) = atoiTail t := by
  cases t with
  | nil =>
    rw [List.nil_append]
    show atoiTail (',' :: r) = atoiTail []
    simp only [atoiTail]
    rw [if_neg (by decide), if_neg (by decide), List.takeWhile_cons]
    rfl
  | cons a t' =>
    rw [List.cons_append]
    simp only [atoiTail]
    by_cases ha : a = '-'
    · rw [if_pos ha, if_pos ha, takeWhile_append_not isDigitB ',' r (by decide)]
    · rw [if_neg ha, if_neg ha]
      by_cases hp : a = '+'
      · rw [if_pos hp, if_pos hp, takeWhile_append_not isDigitB ',' r (by decide)]
      · rw [if_neg hp, if_neg hp, ← List.cons_append,
          takeWhile_append_not isDigitB ',' r (by decide)]

theorem atoiM_append_comma (t r : List Char) :
    atoiM (t ++ ',' :: r) = atoiM t := by
  unfold atoiM
  rw [dropWhile_append_not isSpaceC ',' r (by decide), atoiTail_append_comma]

theorem strtofFrac_append_comma (t r : List Char) :
    strtofFrac (t ++ ',' :: r) = strtofFrac t := by
  cases t with
  | nil =>
    rw [List.nil_append]
    show strtofFrac (',' :: r) = strtofFrac []
    simp only [strtofFrac]
    rw [if_neg (by decide)]
  | cons a t' =>
    rw [List.cons_append]
    simp only [strtofFrac]
    by_cases ha : a = '.'
    · rw [if_pos ha, if_pos ha, takeWhile_append_not isDigitB ',' r (by decide)]
    · rw [if_neg ha, if_neg ha]

theorem strtofMagnitude_append_comma (t r : List Char) :
    strtofMagnitude (t ++ ',' :: r) = strtofMagnitude t := by
  unfold strtofMagnitude
  rw [takeWhile_append_not isDigitB ',' r (by decide),
    dropWhile_append_not isDigitB ',' r (by decide), strtofFrac_append_comma]

theorem strtofTail_append_comma (t r : List Char) :
    strtofTail (t ++ ',' :: r) = strtofTail t := by
  cases t with
  | nil =>
    rw [List.nil_append]
    show strtofTail (',' :: r) = strtofTail []
    simp only [strtofTail]
    rw [if_neg (by decide), if_neg (by decide)]
    show strtofMagnitude (',' :: r) = strtofMagnitude []
    rw [show (',' :: r) = [] ++ ',' :: r from rfl, strtofMagnitude_append_comma]
  | cons a t' =>
    rw [List.cons_append]
    simp only [strtofTail]
    by_cases ha : a = '-'
    · rw [if_pos ha, if_pos ha, strtofMagnitude_append_comma]
    · rw [if_neg ha, if_neg ha]
      by_cases hp : a = '+'
      · rw [if_pos hp, if_pos hp, strtofMagnitude_append_comma]
      · rw [if_neg hp, if_neg hp, ← List.cons_append, strtofMagnitude_append_comma]

theorem strtofM_append_comma (t r : List Char) :
    strtofM (t ++ ',' :: r) = strtofM t := by
  unfold strtofM
  rw [dropWhile_append_not isSpaceC ',' r (by decide), strtofTail_append_comma]

/-! ### CSV field structure -/

/-- Comma-joined fields (specification-side description of a CSV payload). -/
def joinFields : List (List Char) → List Char
  | [] => []
  | [f] => f
  | f :: g :: t => f ++ ',' :: joinFields (g :: t)

theorem skipField_no_comma_self (f : List Char) (hf : ',' ∉ f) : skipField f = [] := by
  induction f with
  | nil => rfl
  | cons a f ih =>
    unfold skipField
    rw [if_neg (by intro h; exact hf (h ▸ List.mem_cons_self a f))]
    exact ih (fun h => hf (List.mem_cons_of_mem a h))

theorem skipField_no_comma (f : List Char) (r : List Char) (hf : ',' ∉ f) :
    skipField (f ++ ',' :: r) = ',' :: r := by
  induction f with
  | nil => rw [List.nil_append]; unfold skipField; rw [if_pos rfl]
  | cons a f ih =>
    rw [List.cons_append]
    unfold skipField
    rw [if_neg (by intro h; exact hf (h ▸ List.mem_cons_self a f))]
    exact ih (fun h => hf (List.mem_cons_of_mem a h))

theorem parse_int_csv_go_ne_nil (a : Char) (t : List Char) (c : Nat) :
    parse_int_csv_go (a :: t) c
      = if c < MAX_CSV_ITEMS then
          atoiM (a :: t) :: parse_int_csv_go (skipComma (skipField (a :: t))) (c + 1)
        else [] := by
  rw [parse_int_csv_go]

theorem parse_float_csv_go_ne_nil (a : Char) (t : List Char) (c : Nat) :
    parse_float_csv_go (a :: t) c
      = if c < MAX_CSV_ITEMS then
          strtofM (a :: t) :: parse_float_csv_go (skipComma (skipField (a :: t))) (c + 1)
        else [] := by
  rw [parse_float_csv_go]

/-- Generic form of the bounded CSV loop on a comma-joined payload with more
than `MAX_CSV_ITEMS` fields: exactly the first `8 - c` remaining fields are
parsed. -/
theorem parse_csv_go_take8 {α : Type} (parseF : List Char → α)
    (go : List Char → Nat → List α)
    (hgo_nil : ∀ c, go [] c = [])
    (hgo : ∀ a t c, go (a :: t) c = if c < MAX_CSV_ITEMS then
        parseF (a :: t) :: go (skipComma (skipField (a :: t))) (c + 1) else [])
    (hpF : ∀ t r, parseF (t ++ ',' :: r) = parseF t) :
    ∀ (fields : List (List Char)) (c : Nat),
      (∀ f ∈ fields, (',' : Char) ∉ f) → c ≤ 8 → 8 < c + fields.length →
      go (joinFields fields) c = (fields.take (8 - c)).map parseF := by
  intro fields
  induction fields with
  | nil => intro c _ hc hlen; simp at hlen; omega
  | cons f fs ih =>
    intro c hnc hc hlen
    by_cases hc8 : c = 8
    · subst hc8
      rw [show (8 : Nat) - 8 = 0 from rfl, List.take_zero, List.map_nil]
      cases hj : joinFields (f :: fs) with
      | nil => exact hgo_nil 8
      | cons a t =>
        rw [hgo a t 8, if_neg (by unfold MAX_CSV_ITEMS; omega)]
    · have hclt : c < 8 := by omega
      cases fs with
      | nil => simp at hlen; omega
      | cons g t =>
        have hjf : joinFields (f :: g :: t) = f ++ ',' :: joinFields (g :: t) := rfl
        rw [hjf]
        obtain ⟨a, t', ha⟩ : ∃ a t', f ++ ',' :: joinFields (g :: t) = a :: t' := by
          cases hfc : f ++ ',' :: joinFields (g :: t) with
          | nil => exact absurd hfc (by simp)
          | cons a t' => exact ⟨a, t', rfl⟩
        rw [ha, hgo a t' c, if_pos (by unfold MAX_CSV_ITEMS; omega), ← ha]
        rw [hpF f (joinFields (g :: t))]
        rw [skipField_no_comma f _ (hnc f (List.mem_cons_self f _))]
        rw [show skipComma (',' :: joinFields (g :: t)) = joinFields (g :: t) from rfl]
        rw [ih (c + 1) (fun x hx => hnc x (List.mem_cons_of_mem f hx)) (by omega)
          (by simp only [List.length_cons] at hlen ⊢; omega)]
        rw [show 8 - c = (8 - (c + 1)) + 1 by omega, List.take_succ_cons, List.map_cons]

/-- Generic form of the bounded CSV loop when all fields fit: every field is
parsed. -/
theorem parse_csv_go_all {α : Type} (parseF : List Char → α)
    (go : List Char → Nat → List α)
    (hgo_nil : ∀ c, go [] c = [])
    (hgo : ∀ a t c, go (a :: t) c = if c < MAX_CSV_ITEMS then
        parseF (a :: t) :: go (skipComma (skipField (a :: t))) (c + 1) else [])
    (hpF : ∀ t r, parseF (t ++ ',' :: r) = parseF t) :
    ∀ (fields : List (List Char)) (c : Nat),
      (∀ f ∈ fields, f ≠ [] ∧ (',' : Char) ∉ f) → c + fields.length ≤ 8 →
      go (joinFields fields) c = fields.map parseF := by
  intro fields
  induction fields with
  | nil => intro c _ _; exact hgo_nil c
  | cons f fs ih =>
    intro c hflds hlen
    simp only [List.length_cons] at hlen
    have hf := hflds f (List.mem_cons_self f fs)
    cases fs with
    | nil =>
      have hjf : joinFields [f] = f := rfl
      rw [hjf]
      obtain ⟨a, t', ha⟩ : ∃ a t', f = a :: t' := by
        cases hfc : f with
        | nil => exact absurd hfc hf.1
        | cons a t' => exact ⟨a, t', rfl⟩
      rw [ha, hgo a t' c, if_pos (by unfold MAX_CSV_ITEMS; omega), ← ha]
      rw [skipField_no_comma_self f hf.2,
        show skipComma [] = [] from rfl, hgo_nil]
      rfl
    | cons g t =>
      have hjf : joinFields (f :: g :: t) = f ++ ',' :: joinFields (g :: t) := rfl
      rw [hjf]
      obtain ⟨a, t', ha⟩ : ∃ a t', f ++ ',' :: joinFields (g :: t) = a :: t' := by
        cases hfc : f ++ ',' :: joinFields (g :: t) with
        | nil => exact absurd hfc (by simp)
        | cons a t' => exact ⟨a, t', rfl⟩
      rw [ha, hgo a t' c, if_pos (by unfold MAX_CSV_ITEMS; omega), ← ha]
      rw [hpF f (joinFields (g :: t))]
      rw [skipField_no_comma f _ hf.2]
      rw [show skipComma (',' :: joinFields (g :: t)) = joinFields (g :: t) from rfl]
      rw [ih (c + 1) (fun x hx => hflds x (List.mem_cons_of_mem f hx))
        (by simp only [List.length_cons] at hlen ⊢; omega)]
      rfl

/-! ### The destructive string split -/

theorem pstr_run_field (f : List Char) (hf : (',' : Char) ∉ f) :
    ∀ (d : List Char) (count : Nat) (cur : List Char) (acc : List (List Char)),
      count < MAX_CSV_ITEMS →
      parse_string_csv_go (f ++ d) count cur acc
        = parse_string_csv_go d count (cur ++ f) acc := by
  induction f with
  | nil => intro d count cur acc _; rw [List.nil_append, List.append_nil]
  | cons a f' ih =>
    intro d count cur acc hcount
    rw [List.cons_append]
    rw [show parse_string_csv_go (a :: (f' ++ d)) count cur acc
        = if count < MAX_CSV_ITEMS then
            (if a = ',' then parse_string_csv_go (f' ++ d) (count + 1) [] (acc ++ [cur])
             else parse_string_csv_go (f' ++ d) count (cur ++ [a]) acc)
          else (acc ++ [cur ++ (a :: (f' ++ d))], count) from rfl]
    rw [if_pos hcount,
      if_neg (by intro h; exact hf (h ▸ List.mem_cons_self a f'))]
    rw [ih (fun h => hf (List.mem_cons_of_mem a h)) d count (cur ++ [a]) acc hcount]
    rw [List.append_assoc]
    rfl

theorem pstr_comma (d : List Char) (count : Nat) (cur : List Char)
    (acc : List (List Char)) (h : count < MAX_CSV_ITEMS) :
    parse_string_csv_go (',' :: d) count cur acc
      = parse_string_csv_go d (count + 1) [] (acc ++ [cur]) := by
  rw [show parse_string_csv_go (',' :: d) count cur acc
      = if count < MAX_CSV_ITEMS then
          (if ',' = ',' then parse_string_csv_go d (count + 1) [] (acc ++ [cur])
           else parse_string_csv_go d count (cur ++ [',']) acc)
        else (acc ++ [cur ++ (',' :: d)], count) from rfl]
  rw [if_pos h, if_pos rfl]

theorem pstr_at_max (d : List Char) (cur : List Char) (acc : List (List Char)) :
    parse_string_csv_go d MAX_CSV_ITEMS cur acc = (acc ++ [cur ++ d], MAX_CSV_ITEMS) := by
  cases d with
  | nil => rw [show parse_string_csv_go [] MAX_CSV_ITEMS cur acc
      = (acc ++ [cur], MAX_CSV_ITEMS) from rfl, List.append_nil]
  | cons c rest =>
    rw [show parse_string_csv_go (c :: rest) MAX_CSV_ITEMS cur acc
        = if MAX_CSV_ITEMS < MAX_CSV_ITEMS then
            (if c = ',' then parse_string_csv_go rest (MAX_CSV_ITEMS + 1) [] (acc ++ [cur])
             else parse_string_csv_go rest MAX_CSV_ITEMS (cur ++ [c]) acc)
          else (acc ++ [cur ++ (c :: rest)], MAX_CSV_ITEMS) from rfl]
    rw [if_neg (by omega)]

/-- Behaviour of the destructive split once the data holds more fields than
the `count < MAX_CSV_ITEMS` budget allows: the first fields are split off
normally and the final recorded slice runs to the end of the payload,
commas included. -/
theorem pstr_overflow : ∀ (fields : List (List Char)) (count : Nat)
    (cur : List Char) (acc : List (List Char)),
    (∀ f ∈ fields, (',' : Char) ∉ f) →
    count < MAX_CSV_ITEMS →
    MAX_CSV_ITEMS - count < fields.length →
    parse_string_csv_go (joinFields fields) count cur acc
      = (acc ++ (cur ++ fields.headD [])
            :: (((fields.drop 1).take (MAX_CSV_ITEMS - count - 1))
               ++ [joinFields (fields.drop (MAX_CSV_ITEMS - count))]),
         MAX_CSV_ITEMS) := by
  intro fields
  induction fields with
  | nil =>
    intro count cur acc _ hcount hlen
    simp at hlen
  | cons f fs ih =>
    intro count cur acc hnc hcount hlen
    cases fs with
    | nil =>
      simp only [List.length_cons, List.length_nil] at hlen
      omega
    | cons g t =>
      have hjf : joinFields (f :: g :: t) = f ++ ',' :: joinFields (g :: t) := rfl
      rw [hjf, pstr_run_field f (hnc f (List.mem_cons_self f _)) _ count cur acc hcount,
        pstr_comma _ count _ acc hcount]
      by_cases hmax : count + 1 = MAX_CSV_ITEMS
      · rw [show count + 1 = MAX_CSV_ITEMS from hmax, pstr_at_max]
        have hk : MAX_CSV_ITEMS - count = 1 := by omega
        rw [hk]
        simp only [List.headD_cons, List.drop_one, List.tail_cons, List.take_zero,
          List.drop_succ_cons, List.drop_zero, List.nil_append]
        rw [List.append_assoc]
        rfl
      · have hlt : count + 1 < MAX_CSV_ITEMS := by omega
        rw [ih (count + 1) [] (acc ++ [cur ++ f])
          (fun x hx => hnc x (List.mem_cons_of_mem f hx)) hlt
          (by simp only [List.length_cons] at hlen ⊢; omega)]
        obtain ⟨a, hA⟩ : ∃ a, MAX_CSV_ITEMS - count = a + 2 :=
          ⟨MAX_CSV_ITEMS - count - 2, by unfold MAX_CSV_ITEMS at *; omega⟩
        have hA' : MAX_CSV_ITEMS - (count + 1) = a + 1 := by omega
        rw [hA, hA']
        simp only [List.headD_cons, List.drop_one, List.tail_cons, List.nil_append,
          List.drop_succ_cons, Nat.add_sub_cancel, List.take_succ_cons]
        simp [List.append_assoc]

/-! ### The canonical decimal rendering evaluates back to its value -/

theorem decListVal_append_digit (xs : List Char) (d : Char) :
    decListVal (xs ++ [d]) = decListVal xs * 10 + (d.toNat - '0'.toNat) := by
  unfold decListVal
  rw [List.foldl_append]
  rfl

theorem digitChar_toNat (k : Nat) (hk : k < 10) : (digitChar k).toNat - '0'.toNat = k := by
  interval_cases k <;> decide

theorem digitChar_isDigit (k : Nat) (hk : k < 10) : isDigitB (digitChar k) = true := by
  interval_cases k <;> decide

theorem natDecimal_ne_nil (n : Nat) : natDecimal n ≠ [] := by
  rw [natDecimal]
  split <;> simp

theorem intDecimal_ne_nil (v : Int) : intDecimal v ≠ [] := by
  unfold intDecimal
  intro h
  rcases List.append_eq_nil.1 h with ⟨_, h2⟩
  exact natDecimal_ne_nil _ h2

theorem decListVal_natDecimal (n : Nat) : decListVal (natDecimal n) = n := by
  induction n using Nat.strong_induction_on with
  | _ n ih =>
    rw [natDecimal]
    by_cases hsmall : n < 10
    · rw [if_pos hsmall]
      rw [show ([digitChar n] : List Char) = [] ++ [digitChar n] from rfl,
        decListVal_append_digit, digitChar_toNat n hsmall]
      show 0 * 10 + n = n
      omega
    · rw [if_neg hsmall, decListVal_append_digit,
        ih (n / 10) (Nat.div_lt_self (by omega) (by omega)),
        digitChar_toNat (n % 10) (Nat.mod_lt n (by omega))]
      omega

theorem natDecimal_digits (n : Nat) : ∀ c ∈ natDecimal n, isDigitB c = true := by
  induction n using Nat.strong_induction_on with
  | _ n ih =>
    intro c hc
    rw [natDecimal] at hc
    by_cases hsmall : n < 10
    · rw [if_pos hsmall] at hc
      simp at hc
      subst hc
      exact digitChar_isDigit n hsmall
    · rw [if_neg hsmall] at hc
      rcases List.mem_append.1 hc with h | h
      · exact ih (n / 10) (Nat.div_lt_self (by omega) (by omega)) c h
      · simp at h
        subst h
        exact digitChar_isDigit (n % 10) (Nat.mod_lt n (by omega))

theorem takeWhile_all (p : Char → Bool) :
    ∀ l : List Char, (∀ c ∈ l, p c = true) → l.takeWhile p = l := by
  intro l
  induction l with
  | nil => intro _; rfl
  | cons a l ih =>
    intro h
    rw [List.takeWhile_cons, h a (List.mem_cons_self a l)]
    simp only [if_true]
    rw [ih (fun c hc => h c (List.mem_cons_of_mem a hc))]

theorem digit_not_space (c : Char) (h : isDigitB c = true) : isSpaceC c = false := by
  unfold isDigitB at h
  simp at h
  by_contra hs
  rw [Bool.not_eq_false] at hs
  unfold isSpaceC at hs
  simp at hs
  rcases hs with ((((h1 | h1) | h1) | h1) | h1) | h1 <;>
    (subst h1; exact absurd h (by decide))

theorem digit_ne_sign (c : Char) (h : isDigitB c = true) : c ≠ '-' ∧ c ≠ '+' := by
  unfold isDigitB at h
  simp at h
  constructor <;> (intro hc; subst hc; exact absurd h (by decide))

theorem atoiM_intDecimal (v : Int) : atoiM (intDecimal v) = v := by
  by_cases hneg : v < 0
  · have hform : intDecimal v = '-' :: natDecimal v.natAbs := by
      unfold intDecimal
      rw [if_pos hneg]
      rfl
    rw [hform]
    unfold atoiM
    rw [List.dropWhile_cons]
    rw [if_neg (by decide)]
    simp only [atoiTail]
    rw [if_pos trivial]
    rw [takeWhile_all _ _ (natDecimal_digits v.natAbs), decListVal_natDecimal]
    omega
  · have hform : intDecimal v = natDecimal v.natAbs := by
      unfold intDecimal
      rw [if_neg hneg]
      rfl
    rw [hform]
    obtain ⟨a, t, ha⟩ : ∃ a t, natDecimal v.natAbs = a :: t := by
      cases hnd : natDecimal v.natAbs with
      | nil => exact absurd hnd (natDecimal_ne_nil _)
      | cons a t => exact ⟨a, t, rfl⟩
    have hdig : isDigitB a = true :=
      natDecimal_digits v.natAbs a (ha ▸ List.mem_cons_self a t)
    unfold atoiM
    rw [ha, List.dropWhile_cons,
      if_neg (by rw [digit_not_space a hdig]; simp)]
    simp only [atoiTail]
    rw [if_neg (digit_ne_sign a hdig).1, if_neg (digit_ne_sign a hdig).2, ← ha]
    rw [takeWhile_all _ _ (natDecimal_digits v.natAbs), decListVal_natDecimal]
    omega

theorem renderInts_eq_joinFields : ∀ vs : List Int,
    renderInts vs = joinFields (vs.map intDecimal) := by
  intro vs
  induction vs with
  | nil => rfl
  | cons v vs ih =>
    cases vs with
    | nil => simp [renderInts, renderIntsTail, joinFields]
    | cons w t =>
      show intDecimal v ++ renderIntsTail (w :: t)
        = joinFields (List.map intDecimal (v :: w :: t))
      have hj : joinFields (List.map intDecimal (v :: w :: t))
          = intDecimal v ++ ',' :: joinFields (List.map intDecimal (w :: t)) := rfl
      rw [hj, ← ih]
      congr 1

/-- On a well-formed rendering of at most 8 integers the dispatcher's CSV
parser returns exactly the original values. -/
theorem parse_int_csv_renderInts (vs : List Int) (h8 : vs.length ≤ 8) :
    parse_int_csv (renderInts vs) = vs := by
  unfold parse_int_csv
  rw [renderInts_eq_joinFields]
  rw [parse_csv_go_all atoiM parse_int_csv_go
    (fun c => by rw [parse_int_csv_go])
    parse_int_csv_go_ne_nil
    atoiM_append_comma
    (vs.map intDecimal) 0
    (by
      intro f hf
      rw [List.mem_map] at hf
      obtain ⟨v, _, hv⟩ := hf
      subst hv
      refine ⟨intDecimal_ne_nil v, ?_⟩
      intro hc
      exact (intDecimal_chars v ',' hc).2.2.2 rfl)
    (by simp; omega)]
  have hmapped : List.map (atoiM ∘ intDecimal) vs = List.map id vs :=
    List.map_congr_left (fun v _ => atoiM_intDecimal v)
  rw [List.map_map, hmapped, List.map_id]

/-! ### Dispatch: first path match decides the outcome -/

/-- The first table entry whose path compares equal (`strcmp == 0`), with its
index. -/
def first_match : List path_entry → Nat → List Char → Option (Nat × path_entry)
  | [], _, _ => none
  | e :: rest, i, path =>
    if path = e.path then some (i, e) else first_match rest (i + 1) path

theorem detect_type_ne_none (d : List Char) : detect_type d ≠ data_type.NONE := by
  rw [detect_type_eq_spec]
  unfold detect_spec
  split
  · simp
  · split <;> simp

/-- A matched route whose expected type differs from the classified type
drops the frame: no handler call at all. -/
theorem exec_scan_mismatch : ∀ (table : List path_entry) (i : Nat) (f : frame_view)
    (j : Nat) (e : path_entry) (d : List Char),
    first_match table i f.path = some (j, e) →
    f.data = some d → f.data_len ≠ 0 →
    detect_type d ≠ e.expected_type →
    exec_scan table i f = none := by
  intro table
  induction table with
  | nil => intro i f j e d hfm; simp [first_match] at hfm
  | cons e0 rest ih =>
    intro i f j e d hfm hd hlen hdet
    unfold first_match at hfm
    unfold exec_scan
    by_cases hp : f.path = e0.path
    · rw [if_pos hp] at hfm
      simp only [Option.some.injEq, Prod.mk.injEq] at hfm
      rw [if_neg (by simpa using hp), hd]
      show (if f.data_len = 0 then some (i, call_desc.callNone)
        else
          if detect_type d ≠ e0.expected_type then none
          else
            match detect_type d with
            | data_type.INT => some (i, call_desc.callInt (parse_int_csv d))
            | data_type.FLOAT => some (i, call_desc.callFloat (parse_float_csv d))
            | data_type.STRING => some (i, call_desc.callString (parse_string_csv d).1)
            | data_type.NONE => none) = none
      rw [if_neg hlen, if_pos (by rw [hfm.2]; exact hdet)]
    · rw [if_neg hp] at hfm
      rw [if_pos (by simpa using hp)]
      exact ih (i + 1) f j e d hfm hd hlen hdet

/-- A matched route with agreeing classed type invokes exactly that entry's
handler with the parsed CSV arguments. -/
theorem exec_scan_match : ∀ (table : List path_entry) (i : Nat) (f : frame_view)
    (j : Nat) (e : path_entry) (d : List Char),
    first_match table i f.path = some (j, e) →
    f.data = some d → f.data_len ≠ 0 →
    detect_type d = e.expected_type →
    exec_scan table i f = some (j,
      match detect_type d with
      | data_type.INT => call_desc.callInt (parse_int_csv d)
      | data_type.FLOAT => call_desc.callFloat (parse_float_csv d)
      | data_type.STRING => call_desc.callString (parse_string_csv d).1
      | data_type.NONE => call_desc.callNone) := by
  intro table
  induction table with
  | nil => intro i f j e d hfm; simp [first_match] at hfm
  | cons e0 rest ih =>
    intro i f j e d hfm hd hlen hdet
    unfold first_match at hfm
    unfold exec_scan
    by_cases hp : f.path = e0.path
    · rw [if_pos hp] at hfm
      simp only [Option.some.injEq, Prod.mk.injEq] at hfm
      rw [if_neg (by simpa using hp), hd]
      show (if f.data_len = 0 then some (i, call_desc.callNone)
        else
          if detect_type d ≠ e0.expected_type then none
          else
            match detect_type d with
            | data_type.INT => some (i, call_desc.callInt (parse_int_csv d))
            | data_type.FLOAT => some (i, call_desc.callFloat (parse_float_csv d))
            | data_type.STRING => some (i, call_desc.callString (parse_string_csv d).1)
            | data_type.NONE => none) = _
      rw [if_neg hlen, if_neg (by rw [hfm.2]; exact fun hne => hne hdet)]
      rw [← hfm.1]
      cases hdt : detect_type d with
      | NONE => exact absurd hdt (detect_type_ne_none d)
      | INT => rfl
      | FLOAT => rfl
      | STRING => rfl
    · rw [if_neg hp] at hfm
      rw [if_pos (by simpa using hp)]
      exact ih (i + 1) f j e d hfm hd hlen hdet

/-! ### Concrete evaluation of the float-carry case -/

/-- A fresh 20-byte TX queue for evaluating the encoder. -/
def txq20 : ring_buffer Char := ring_buffer.make (fun _ => ' ') 20

theorem absQ_eval : absQ ((3999 : ℚ) / 2000) = (3999 : ℚ) / 2000 := by
  unfold absQ
  rw [if_neg (by norm_num)]

theorem int_partQ_eval : int_partQ ((3999 : ℚ) / 2000) = 1 := by
  unfold int_partQ
  rw [absQ_eval]
  rw [Int.floor_eq_iff]
  norm_num

theorem frac_part_rawQ_eval : frac_part_rawQ ((3999 : ℚ) / 2000) = 1000 := by
  unfold frac_part_rawQ fracQ
  rw [absQ_eval, int_partQ_eval]
  rw [show ((3999 : ℚ) / 2000 - ((1 : Int) : ℚ)) * 1000 + 1 / 2 = ((1000 : Int) : ℚ) by
    norm_num]
  exact Int.floor_intCast 1000

theorem frac_partQ_eval : frac_partQ ((3999 : ℚ) / 2000) = 0 := by
  unfold frac_partQ
  rw [frac_part_rawQ_eval]
  rfl

theorem push_float_eval_19995 :
    cmnd_sender.push_float txq20 ((3999 : ℚ) / 2000)
      = sendBind (cmnd_sender.push_int txq20 1) (fun q =>
        sendBind (cmnd_sender.push_char q '.') (fun q =>
        sendBind (cmnd_sender.push_char q '0') (fun q =>
        sendBind (cmnd_sender.push_char q '0') (fun q =>
        cmnd_sender.push_int q 0)))) := by
  unfold cmnd_sender.push_float
  rw [if_neg (by norm_num : ¬ ((3999 : ℚ) / 2000 < 0)), int_partQ_eval, frac_partQ_eval]
  norm_num
  rfl

/-! ### Remaining support lemmas -/

theorem ring_buffer.push_Inv {T : Type} (q : ring_buffer T) (item : T) (h : q.Inv) :
    (q.push item).1.Inv := by
  rcases hb : (q.push item).2 with _ | _
  · rw [ring_buffer.push_fail_state q item hb]; exact h
  · exact (ring_buffer.push_succ_contents q item h hb).2

theorem ring_buffer.pop_Inv {T : Type} (q : ring_buffer T) (h : q.Inv) :
    q.pop.1.Inv := by
  rcases hb : q.pop.2 with _ | x
  · rw [ring_buffer.pop_fail_state q hb]; exact h
  · exact (ring_buffer.pop_succ_contents q h x hb).2

theorem natDecimal_no_leading_zero :
    ∀ n : Nat, 1 ≤ n → (natDecimal n).head? ≠ some '0' := by
  intro n
  induction n using Nat.strong_induction_on with
  | _ n ih =>
    intro hn
    rw [natDecimal]
    by_cases hsmall : n < 10
    · rw [if_pos hsmall]
      rw [List.head?_cons]
      interval_cases n <;> decide
    · rw [if_neg hsmall]
      obtain ⟨a, t, ha⟩ : ∃ a t, natDecimal (n / 10) = a :: t := by
        cases hnd : natDecimal (n / 10) with
        | nil => exact absurd hnd (natDecimal_ne_nil _)
        | cons a t => exact ⟨a, t, rfl⟩
      rw [ha, List.cons_append, List.head?_cons]
      have hrec := ih (n / 10) (Nat.div_lt_self (by omega) (by omega)) (by omega)
      rw [ha, List.head?_cons] at hrec
      exact hrec

theorem take_succ_headD {α : Type} (l : List α) (k : Nat) (d : α) (h : l ≠ []) :
    l.take (k + 1) = l.headD d :: (l.drop 1).take k := by
  cases l with
  | nil => exact absurd rfl h
  | cons a t => rfl

/-! ## The claims -/

/-- C4: `push` fails (returning `false`, with no state change) exactly when
the queue is full, i.e. `(prd + 1) % C = cns`; `pop` fails exactly when
`prd = cns`; consequently after `C - 1` successful pushes from a fresh queue
the next push fails, and after one pop the next push succeeds. -/
theorem C4_push_pop_failure (T : Type) :
    (∀ (q : ring_buffer T) (item : T),
      ((q.push item).2 = false ↔ (q.prd + 1) % q.buffer_size = q.cns)
      ∧ ((q.push item).2 = false → (q.push item).1 = q))
    ∧ (∀ q : ring_buffer T,
      (q.pop.2 = none ↔ q.cns = q.prd) ∧ (q.pop.2 = none → q.pop.1 = q))
    ∧ (∀ (store : Nat → T) (C : Nat) (vs : List T) (x y : T),
        1 < C → vs.length = C - 1 →
        (((ring_buffer.make store C).pushAll vs).2 = true
        ∧ ((((ring_buffer.make store C).pushAll vs).1).push x).2 = false
        ∧ ((((ring_buffer.make store C).pushAll vs).1).pop).2 ≠ none
        ∧ (((((ring_buffer.make store C).pushAll vs).1).pop).1.push y).2 = true)) := by
  refine ⟨fun q item => ⟨ring_buffer.push_fail_iff q item, ring_buffer.push_fail_state q item⟩,
    fun q => ⟨ring_buffer.pop_fail_iff q, ring_buffer.pop_fail_state q⟩,
    fun store C vs x y hC hlen => ?_⟩
  have hfill := ring_buffer.pushAll_from_zero vs (ring_buffer.make store C)
    (ring_buffer.make_Inv store C hC) rfl
    (by rw [hlen]; show 0 + (C - 1) ≤ C - 1; omega)
  obtain ⟨hok, hprd, hcns, hsize⟩ := hfill
  rw [hlen] at hprd
  have hsizeC : ((ring_buffer.make store C).pushAll vs).1.buffer_size = C := by
    rw [hsize]; rfl
  have hprd' : ((ring_buffer.make store C).pushAll vs).1.prd = C - 1 := by
    rw [hprd]; show 0 + (C - 1) = C - 1; omega
  refine ⟨hok, ?_, ?_, ?_⟩
  · -- the next push fails: the queue is full
    rw [ring_buffer.push_fail_iff]
    rw [hprd', hcns, hsizeC]
    rw [show C - 1 + 1 = C by omega, Nat.mod_self]
  · -- a pop succeeds
    intro hc
    rw [ring_buffer.pop_fail_iff] at hc
    rw [hprd', hcns] at hc
    omega
  · -- after the pop the next push succeeds
    have hne : ¬ (((ring_buffer.make store C).pushAll vs).1.cns
        = ((ring_buffer.make store C).pushAll vs).1.prd) := by
      rw [hprd', hcns]; omega
    have hpop : (((ring_buffer.make store C).pushAll vs).1).pop.1
        = { ((ring_buffer.make store C).pushAll vs).1 with
            cns := (((ring_buffer.make store C).pushAll vs).1.cns + 1)
              % ((ring_buffer.make store C).pushAll vs).1.buffer_size } := by
      unfold ring_buffer.pop
      rw [if_neg hne]
    rcases hb : ((((ring_buffer.make store C).pushAll vs).1).pop.1.push y).2 with _ | _
    · exfalso
      rw [ring_buffer.push_fail_iff] at hb
      rw [hpop] at hb
      simp only at hb
      rw [hprd', hcns, hsizeC] at hb
      rw [show C - 1 + 1 = C by omega, Nat.mod_self,
        show (0 + 1) % C = 1 by rw [Nat.mod_eq_of_lt (by omega)]] at hb
      omega
    · rfl

/-- Witness for C4 at a concrete queue of capacity 3. -/
theorem C4_witness :
    ((1 : Nat) < 3 ∧ ([5, 6] : List Nat).length = 3 - 1)
    ∧ (((ring_buffer.make (fun _ : Nat => 0) 3).pushAll [5, 6]).2 = true
      ∧ ((((ring_buffer.make (fun _ : Nat => 0) 3).pushAll [5, 6]).1).push 7).2 = false
      ∧ ((((ring_buffer.make (fun _ : Nat => 0) 3).pushAll [5, 6]).1).pop).2 ≠ none
      ∧ (((((ring_buffer.make (fun _ : Nat => 0) 3).pushAll [5, 6]).1).pop).1.push 8).2
          = true) :=
  ⟨⟨by decide, by decide⟩,
    (C4_push_pop_failure Nat).2.2 (fun _ => 0) 3 [5, 6] 7 8 (by decide) (by decide)⟩

/-- C5: FIFO order — for any operation sequence on a fresh queue, the
successful pops (in order) followed by what remains queued equal the
accepted pushes (in order); in particular the pops are a prefix of the
pushes. -/
theorem C5_fifo_order (T : Type) (store : Nat → T) (C : Nat) (ops : List (qop T))
    (hC : 1 < C) :
    ((ring_buffer.make store C).runOps ops).2.2
        ++ ((ring_buffer.make store C).runOps ops).1.contents
      = ((ring_buffer.make store C).runOps ops).2.1
    ∧ ∃ t, ((ring_buffer.make store C).runOps ops).2.1
        = ((ring_buffer.make store C).runOps ops).2.2 ++ t := by
  have h := ring_buffer.runOps_fifo ops (ring_buffer.make store C)
    (ring_buffer.make_Inv store C hC)
  rw [ring_buffer.contents_make, List.nil_append] at h
  exact ⟨h.1, ⟨((ring_buffer.make store C).runOps ops).1.contents, h.1.symm⟩⟩

/-- Witness for C5 on a concrete operation sequence. -/
theorem C5_witness :
    ((1 : Nat) < 3)
    ∧ (((ring_buffer.make (fun _ : Nat => 0) 3).runOps
          [qop.push 4, qop.push 5, qop.pop, qop.push 6, qop.pop]).2.2
        ++ ((ring_buffer.make (fun _ : Nat => 0) 3).runOps
          [qop.push 4, qop.push 5, qop.pop, qop.push 6, qop.pop]).1.contents
      = ((ring_buffer.make (fun _ : Nat => 0) 3).runOps
          [qop.push 4, qop.push 5, qop.pop, qop.push 6, qop.pop]).2.1
      ∧ ∃ t, ((ring_buffer.make (fun _ : Nat => 0) 3).runOps
          [qop.push 4, qop.push 5, qop.pop, qop.push 6, qop.pop]).2.1
        = ((ring_buffer.make (fun _ : Nat => 0) 3).runOps
          [qop.push 4, qop.push 5, qop.pop, qop.push 6, qop.pop]).2.2 ++ t) :=
  ⟨by decide,
    C5_fifo_order Nat (fun _ => 0) 3
      [qop.push 4, qop.push 5, qop.pop, qop.push 6, qop.pop] (by decide)⟩

/-- C10: in a queue constructed with `bufferSize > 1` both indices start
below `buffer_size`, every `push`/`pop` keeps them below `buffer_size`, and
hence the storage accesses `prd % buffer_size` / `cns % buffer_size` are the
plain indices (the inner modulo is redundant). -/
theorem C10_index_invariant (T : Type) (store : Nat → T) (C : Nat) (hC : 1 < C) :
    ((ring_buffer.make store C).Inv
      ∧ (ring_buffer.make store C).prd < C ∧ (ring_buffer.make store C).cns < C)
    ∧ (∀ (q : ring_buffer T) (item : T), q.Inv →
        (q.push item).1.Inv ∧ q.pop.1.Inv
        ∧ q.prd % q.buffer_size = q.prd ∧ q.cns % q.buffer_size = q.cns) := by
  refine ⟨⟨ring_buffer.make_Inv store C hC, by show (0:Nat) < C; omega,
    by show (0:Nat) < C; omega⟩, fun q item hq => ?_⟩
  exact ⟨ring_buffer.push_Inv q item hq, ring_buffer.pop_Inv q hq,
    Nat.mod_eq_of_lt hq.2.1, Nat.mod_eq_of_lt hq.2.2⟩

/-- Witness for C10 at a concrete queue. -/
theorem C10_witness :
    ((1 : Nat) < 3 ∧ (ring_buffer.mk (fun _ : Nat => 0) 3 2 1).Inv)
    ∧ ((ring_buffer.mk (fun _ : Nat => 0) 3 2 1).push 9).1.Inv
      ∧ (ring_buffer.mk (fun _ : Nat => 0) 3 2 1).pop.1.Inv
      ∧ (ring_buffer.mk (fun _ : Nat => 0) 3 2 1).prd
          % (ring_buffer.mk (fun _ : Nat => 0) 3 2 1).buffer_size
        = (ring_buffer.mk (fun _ : Nat => 0) 3 2 1).prd
      ∧ (ring_buffer.mk (fun _ : Nat => 0) 3 2 1).cns
          % (ring_buffer.mk (fun _ : Nat => 0) 3 2 1).buffer_size
        = (ring_buffer.mk (fun _ : Nat => 0) 3 2 1).cns :=
  ⟨⟨by decide, by decide⟩,
    (C10_index_invariant Nat (fun _ => 0) 3 (by decide)).2
      (ring_buffer.mk (fun _ : Nat => 0) 3 2 1) 9 (by decide)⟩

/-- C2: from `WAIT_START` with write index 0, the bytes of
`{p:<P>:d:<D>}` (with `P` free of `':'`/`'}'`, `D` free of `'}'`,
`|P| + |D| + 2` within the scratch capacity, and a non-full frame queue)
are consumed by one `poll`, exactly one frame is queued whose path slice
equals `P` with `path_len = |P|` and whose data slice equals `D` with
`data_len = |D|`, and the parser is back in `WAIT_START`. -/
theorem C2_single_frame (P D : List Char) (p : cmndParser)
    (q : ring_buffer cmnd_frame)
    (hstate : p.state = state_t.WAIT_START) (hidx : p.idx = 0)
    (hP : ∀ c ∈ P, c ≠ ':' ∧ c ≠ '}') (hD : ∀ c ∈ D, c ≠ '}')
    (hcap : P.length + D.length + 2 ≤ p.work_buf_size)
    (hq : q.Inv) (hnf : (q.prd + 1) % q.buffer_size ≠ q.cns) :
    ∃ p' q',
      cmndParser.poll ('{' :: 'p' :: ':' :: (P ++ ':' :: 'd' :: ':' :: (D ++ ['}']))) p q
        = (p', q')
      ∧ q'.contents = q.contents ++ [⟨0, P.length, P.length + 1, D.length⟩]
      ∧ q'.Inv
      ∧ readSlice p'.workBuffer 0 P.length = P
      ∧ readSlice p'.workBuffer (P.length + 1) D.length = D
      ∧ p'.state = state_t.WAIT_START ∧ p'.idx = 0 := by
  have hopen := cmndParser.step_wait_start_open p q hstate (by omega)
  obtain ⟨p', q', hpoll, hstate', hidx', hwbs', hcont, hinv, hslP, hslD⟩ :=
    cmndParser.frame_run P D { p.reset with state := state_t.WAIT_P } q rfl rfl
      (fun c hc => (hP c hc).1) hD
      (by show P.length + D.length + 2 ≤ p.work_buf_size; omega) hq hnf
  refine ⟨p', q', ?_, hcont, hinv, hslP, hslD, hstate', hidx'⟩
  rw [cmndParser.poll_cons _ _ _ _ _ _ hopen, hpoll]

/-- Witness for C2 with path `"a"` and data `"1"`. -/
theorem C2_witness :
    ((⟨fun _ => ' ', 10, 0, none, 0, none, 0, state_t.WAIT_START⟩ : cmndParser).state
        = state_t.WAIT_START
    ∧ (⟨fun _ => ' ', 10, 0, none, 0, none, 0, state_t.WAIT_START⟩ : cmndParser).idx = 0
    ∧ (∀ c ∈ (['a'] : List Char), c ≠ ':' ∧ c ≠ '}')
    ∧ (∀ c ∈ (['1'] : List Char), c ≠ '}')
    ∧ (['a'] : List Char).length + (['1'] : List Char).length + 2
        ≤ (⟨fun _ => ' ', 10, 0, none, 0, none, 0, state_t.WAIT_START⟩ : cmndParser).work_buf_size
    ∧ (ring_buffer.make (fun _ => (⟨0, 0, 0, 0⟩ : cmnd_frame)) 4).Inv
    ∧ ((ring_buffer.make (fun _ => (⟨0, 0, 0, 0⟩ : cmnd_frame)) 4).prd + 1)
        % (ring_buffer.make (fun _ => (⟨0, 0, 0, 0⟩ : cmnd_frame)) 4).buffer_size
        ≠ (ring_buffer.make (fun _ => (⟨0, 0, 0, 0⟩ : cmnd_frame)) 4).cns)
    ∧ ∃ p' q',
        cmndParser.poll
          ('{' :: 'p' :: ':' :: ((['a'] : List Char) ++ ':' :: 'd' :: ':' :: ((['1'] : List Char) ++ ['}'])))
          (⟨fun _ => ' ', 10, 0, none, 0, none, 0, state_t.WAIT_START⟩ : cmndParser)
          (ring_buffer.make (fun _ => (⟨0, 0, 0, 0⟩ : cmnd_frame)) 4)
          = (p', q')
        ∧ q'.contents
            = (ring_buffer.make (fun _ => (⟨0, 0, 0, 0⟩ : cmnd_frame)) 4).contents
              ++ [⟨0, (['a'] : List Char).length, (['a'] : List Char).length + 1,
                   (['1'] : List Char).length⟩]
        ∧ q'.Inv
        ∧ readSlice p'.workBuffer 0 (['a'] : List Char).length = ['a']
        ∧ readSlice p'.workBuffer ((['a'] : List Char).length + 1)
            (['1'] : List Char).length = ['1']
        ∧ p'.state = state_t.WAIT_START ∧ p'.idx = 0 :=
  ⟨⟨rfl, rfl, by decide, by decide, by decide, by decide, by decide⟩,
    C2_single_frame ['a'] ['1']
      ⟨fun _ => ' ', 10, 0, none, 0, none, 0, state_t.WAIT_START⟩
      (ring_buffer.make (fun _ => (⟨0, 0, 0, 0⟩ : cmnd_frame)) 4)
      rfl rfl (by decide) (by decide) (by decide) (by decide) (by decide)⟩

/-- C6: with the scratch write index at (or beyond) the capacity, the next
byte only resets the parser into `ERROR` and is itself dropped; from
`ERROR` all bytes up to the next `'{'` are ignored, and the well-formed
frame starting at that `'{'` is then parsed and queued correctly. -/
theorem C6_overflow_recovery (p : cmndParser) (q : ring_buffer cmnd_frame)
    (trigger : Char) (junk P D : List Char)
    (hover : p.work_buf_size ≤ p.idx)
    (hjunk : ∀ c ∈ junk, c ≠ '{')
    (hP : ∀ c ∈ P, c ≠ ':') (hD : ∀ c ∈ D, c ≠ '}')
    (hcap : P.length + D.length + 2 ≤ p.work_buf_size)
    (hq : q.Inv) (hnf : (q.prd + 1) % q.buffer_size ≠ q.cns) :
    p.step q trigger = ({ p.reset with state := state_t.ERROR }, q)
    ∧ ∃ p' q',
        cmndParser.poll
          (trigger :: (junk ++ '{' :: 'p' :: ':' :: (P ++ ':' :: 'd' :: ':' :: (D ++ ['}']))))
          p q = (p', q')
        ∧ q'.contents = q.contents ++ [⟨0, P.length, P.length + 1, D.length⟩]
        ∧ q'.Inv
        ∧ readSlice p'.workBuffer 0 P.length = P
        ∧ readSlice p'.workBuffer (P.length + 1) D.length = D
        ∧ p'.state = state_t.WAIT_START := by
  have hstep := cmndParser.step_guard p q trigger hover
  refine ⟨hstep, ?_⟩
  obtain ⟨p2, hpoll2, hst2, hidx2, hwbs2⟩ :=
    cmndParser.error_run junk { p.reset with state := state_t.ERROR } q
      ('{' :: 'p' :: ':' :: (P ++ ':' :: 'd' :: ':' :: (D ++ ['}'])))
      rfl rfl (by show 0 < p.work_buf_size; omega) hjunk
  have hwbs2' : p2.work_buf_size = p.work_buf_size := hwbs2
  have hopen := cmndParser.step_error_open p2 q hst2 (by omega)
  obtain ⟨p', q', hpoll3, hstate', hidx', hwbs', hcont, hinv, hslP, hslD⟩ :=
    cmndParser.frame_run P D { { p2 with idx := 0 }.reset with state := state_t.WAIT_P } q
      rfl rfl hP hD
      (by show P.length + D.length + 2 ≤ p2.work_buf_size; omega) hq hnf
  refine ⟨p', q', ?_, hcont, hinv, hslP, hslD, hstate'⟩
  rw [cmndParser.poll_cons _ _ _ _ _ _ hstep, hpoll2,
    cmndParser.poll_cons _ _ _ _ _ _ hopen, hpoll3]

/-- Witness for C6: trigger `'x'` on a saturated parser, junk `"yz"`, then
the frame `{p:a:d:1}`. -/
theorem C6_witness :
    ((⟨fun _ => 'w', 5, 5, none, 0, none, 0, state_t.READ_DATA⟩ : cmndParser).work_buf_size
        ≤ (⟨fun _ => 'w', 5, 5, none, 0, none, 0, state_t.READ_DATA⟩ : cmndParser).idx
    ∧ (∀ c ∈ (['y', 'z'] : List Char), c ≠ '{')
    ∧ (∀ c ∈ (['a'] : List Char), c ≠ ':')
    ∧ (∀ c ∈ (['1'] : List Char), c ≠ '}')
    ∧ (['a'] : List Char).length + (['1'] : List Char).length + 2
        ≤ (⟨fun _ => 'w', 5, 5, none, 0, none, 0, state_t.READ_DATA⟩ : cmndParser).work_buf_size
    ∧ (ring_buffer.make (fun _ => (⟨0, 0, 0, 0⟩ : cmnd_frame)) 4).Inv
    ∧ ((ring_buffer.make (fun _ => (⟨0, 0, 0, 0⟩ : cmnd_frame)) 4).prd + 1)
        % (ring_buffer.make (fun _ => (⟨0, 0, 0, 0⟩ : cmnd_frame)) 4).buffer_size
        ≠ (ring_buffer.make (fun _ => (⟨0, 0, 0, 0⟩ : cmnd_frame)) 4).cns)
    ∧ ((⟨fun _ => 'w', 5, 5, none, 0, none, 0, state_t.READ_DATA⟩ : cmndParser).step
          (ring_buffer.make (fun _ => (⟨0, 0, 0, 0⟩ : cmnd_frame)) 4) 'x'
        = ({ (⟨fun _ => 'w', 5, 5, none, 0, none, 0, state_t.READ_DATA⟩ : cmndParser).reset
              with state := state_t.ERROR },
           ring_buffer.make (fun _ => (⟨0, 0, 0, 0⟩ : cmnd_frame)) 4)
      ∧ ∃ p' q',
          cmndParser.poll
            ('x' :: ((['y', 'z'] : List Char)
              ++ '{' :: 'p' :: ':' :: ((['a'] : List Char)
                ++ ':' :: 'd' :: ':' :: ((['1'] : List Char) ++ ['}']))))
            (⟨fun _ => 'w', 5, 5, none, 0, none, 0, state_t.READ_DATA⟩ : cmndParser)
            (ring_buffer.make (fun _ => (⟨0, 0, 0, 0⟩ : cmnd_frame)) 4)
            = (p', q')
          ∧ q'.contents
              = (ring_buffer.make (fun _ => (⟨0, 0, 0, 0⟩ : cmnd_frame)) 4).contents
                ++ [⟨0, (['a'] : List Char).length, (['a'] : List Char).length + 1,
                     (['1'] : List Char).length⟩]
          ∧ q'.Inv
          ∧ readSlice p'.workBuffer 0 (['a'] : List Char).length = ['a']
          ∧ readSlice p'.workBuffer ((['a'] : List Char).length + 1)
              (['1'] : List Char).length = ['1']
          ∧ p'.state = state_t.WAIT_START) :=
  ⟨⟨by decide, by decide, by decide, by decide, by decide, by decide, by decide⟩,
    C6_overflow_recovery
      ⟨fun _ => 'w', 5, 5, none, 0, none, 0, state_t.READ_DATA⟩
      (ring_buffer.make (fun _ => (⟨0, 0, 0, 0⟩ : cmnd_frame)) 4)
      'x' ['y', 'z'] ['a'] ['1']
      (by decide) (by decide) (by decide) (by decide) (by decide) (by decide) (by decide)⟩

/-- C1: round-trip.  For a path free of `':'`, `'}'`, `'{'`, `','` and
1–8 `int32` values, a successful `send_int` starting from an empty TX queue
enqueues exactly the frame bytes `{p:<P>:d:<render>}` where `<render>` is
the comma-separated canonical decimal rendering of the values; feeding those
bytes through a `cmndParser` (in `WAIT_START`, sufficient scratch, frame
queue not full) queues exactly one frame whose path slice is `P` and whose
data slice is that rendering; the integer values round-trip exactly
(`parse_int_csv` recovers them). -/
theorem C1_roundtrip (P : List Char) (vs : List Int) (qtx : ring_buffer Char)
    (p : cmndParser) (qfr : ring_buffer cmnd_frame)
    (hPc : ∀ c ∈ P, c ≠ ':' ∧ c ≠ '}' ∧ c ≠ '{' ∧ c ≠ ',')
    (hn1 : 1 ≤ vs.length) (hn8 : vs.length ≤ 8)
    (hrange : ∀ v ∈ vs, -2147483648 ≤ v ∧ v ≤ 2147483647)
    (htxinv : qtx.Inv) (htxempty : qtx.contents = [])
    (hsend : (cmnd_sender.send_int qtx P vs).2 = true)
    (hstate : p.state = state_t.WAIT_START) (hidx : p.idx = 0)
    (hcap : P.length + (renderInts vs).length + 2 ≤ p.work_buf_size)
    (hq : qfr.Inv) (hnf : (qfr.prd + 1) % qfr.buffer_size ≠ qfr.cns) :
    (cmnd_sender.send_int qtx P vs).1.contents
      = '{' :: 'p' :: ':' :: (P ++ ':' :: 'd' :: ':' :: (renderInts vs ++ ['}']))
    ∧ (∃ p' q',
        cmndParser.poll ((cmnd_sender.send_int qtx P vs).1.contents) p qfr = (p', q')
        ∧ q'.contents = qfr.contents
            ++ [⟨0, P.length, P.length + 1, (renderInts vs).length⟩]
        ∧ q'.Inv
        ∧ readSlice p'.workBuffer 0 P.length = P
        ∧ readSlice p'.workBuffer (P.length + 1) (renderInts vs).length = renderInts vs
        ∧ p'.state = state_t.WAIT_START)
    ∧ parse_int_csv (renderInts vs) = vs := by
  have hb : ∀ v ∈ vs, v.natAbs < 10 ^ 12 := by
    intro v hv
    have := hrange v hv
    have h12 : (10 : Nat) ^ 12 = 1000000000000 := by norm_num
    rw [h12]
    omega
  have hcontents : (cmnd_sender.send_int qtx P vs).1.contents
      = '{' :: 'p' :: ':' :: (P ++ ':' :: 'd' :: ':' :: (renderInts vs ++ ['}'])) := by
    have := emits_send_int P vs hb qtx htxinv hsend
    rw [this.1, htxempty, List.nil_append]
  refine ⟨hcontents, ?_, parse_int_csv_renderInts vs hn8⟩
  rw [hcontents]
  have hopen := cmndParser.step_wait_start_open p qfr hstate (by omega)
  obtain ⟨p', q', hpoll, hstate', hidx', hwbs', hcont, hinv, hslP, hslD⟩ :=
    cmndParser.frame_run P (renderInts vs) { p.reset with state := state_t.WAIT_P } qfr
      rfl rfl (fun c hc => (hPc c hc).1)
      (fun c hc => (renderInts_chars vs c hc).1)
      (by show P.length + (renderInts vs).length + 2 ≤ p.work_buf_size; omega) hq hnf
  refine ⟨p', q', ?_, hcont, hinv, hslP, hslD, hstate'⟩
  rw [cmndParser.poll_cons _ _ _ _ _ _ hopen, hpoll]

def qtxW : ring_buffer Char := ring_buffer.make (fun _ => ' ') 16

def pW : cmndParser := ⟨fun _ => ' ', 10, 0, none, 0, none, 0, state_t.WAIT_START⟩

def qfrW : ring_buffer cmnd_frame := ring_buffer.make (fun _ => ⟨0, 0, 0, 0⟩) 4

theorem natDecimal_five : natDecimal 5 = ['5'] := by
  rw [← pushIntLoopF_reverse 12 5 (by decide) (by decide)]
  decide

theorem renderInts_five : renderInts [5] = ['5'] := by
  simp [renderInts, renderIntsTail, intDecimal, natDecimal_five]

/-- Witness for C1: path `"a"`, values `[5]`. -/
theorem C1_roundtrip_witness :
    ((cmnd_sender.send_int qtxW ['a'] [5]).2 = true
      ∧ qtxW.contents = []
      ∧ (['a'] : List Char).length + (renderInts [5]).length + 2 ≤ pW.work_buf_size)
    ∧ ((cmnd_sender.send_int qtxW ['a'] [5]).1.contents
        = '{' :: 'p' :: ':' :: ((['a'] : List Char)
            ++ ':' :: 'd' :: ':' :: (renderInts [5] ++ ['}']))
      ∧ (∃ p' q',
          cmndParser.poll ((cmnd_sender.send_int qtxW ['a'] [5]).1.contents) pW qfrW
            = (p', q')
          ∧ q'.contents = qfrW.contents
              ++ [⟨0, (['a'] : List Char).length, (['a'] : List Char).length + 1,
                   (renderInts [5]).length⟩]
          ∧ q'.Inv
          ∧ readSlice p'.workBuffer 0 (['a'] : List Char).length = ['a']
          ∧ readSlice p'.workBuffer ((['a'] : List Char).length + 1)
              (renderInts [5]).length = renderInts [5]
          ∧ p'.state = state_t.WAIT_START)
      ∧ parse_int_csv (renderInts [5]) = [5]) :=
  ⟨⟨by decide, by decide, by rw [renderInts_five]; decide⟩,
    C1_roundtrip ['a'] [5] qtxW pW qfrW
      (by decide) (by decide) (by decide) (by decide) (by decide) (by decide)
      (by decide) rfl rfl (by rw [renderInts_five]; decide) (by decide) (by decide)⟩

/-- C3 (refuted by the code): `push_float` pushes the integer part before the
rounding carry is computed, so the `int_part++` of the carry branch is lost.
Encoding `1.9995` (exactly `3999/2000`; `float` arithmetic modelled exactly
over `ℚ`) on a fresh 20-byte TX queue succeeds but emits the bytes `"1.000"`,
not the `"2.000"` the claim requires. -/
theorem C3_float_carry_order :
    (cmnd_sender.push_float txq20 ((3999 : ℚ) / 2000)).2 = true
    ∧ (cmnd_sender.push_float txq20 ((3999 : ℚ) / 2000)).1.contents = "1.000".toList
    ∧ (cmnd_sender.push_float txq20 ((3999 : ℚ) / 2000)).1.contents
        ≠ "2.000".toList := by
  rw [push_float_eval_19995]
  exact ⟨by decide, by decide, by decide⟩

/-- C7: for a non-empty data payload the dispatcher's classifier agrees with
the specification's rule (`String` if any character is not a digit, `'-'`,
`','` or `'.'`; otherwise `Float` when a `'.'` occurs, else `Int`), and when
the classified type differs from the matched route entry's expected type the
frame is dropped with no handler invocation. -/
theorem C7_classification_mismatch_drop (table : List path_entry) (i : Nat)
    (f : frame_view) (j : Nat) (e : path_entry) (d : List Char)
    (hfm : first_match table i f.path = some (j, e))
    (hd : f.data = some d) (hlen : f.data_len ≠ 0)
    (hmis : detect_type d ≠ e.expected_type) :
    detect_type d = detect_spec d ∧ exec_scan table i f = none :=
  ⟨detect_type_eq_spec d, exec_scan_mismatch table i f j e d hfm hd hlen hmis⟩

/-- Witness for C7: an `Int` route receiving the payload `"abc"` never
invokes its handler. -/
theorem C7_witness :
    (first_match [path_entry.mk ['x'] data_type.INT] 0
        (frame_view.mk ['x'] 1 (some ['a', 'b', 'c']) 3).path
      = some (0, path_entry.mk ['x'] data_type.INT)
      ∧ (frame_view.mk ['x'] 1 (some ['a', 'b', 'c']) 3).data = some ['a', 'b', 'c']
      ∧ (frame_view.mk ['x'] 1 (some ['a', 'b', 'c']) 3).data_len ≠ 0
      ∧ detect_type ['a', 'b', 'c']
          ≠ (path_entry.mk ['x'] data_type.INT).expected_type)
    ∧ (detect_type ['a', 'b', 'c'] = detect_spec ['a', 'b', 'c']
      ∧ exec_scan [path_entry.mk ['x'] data_type.INT] 0
          (frame_view.mk ['x'] 1 (some ['a', 'b', 'c']) 3) = none) :=
  ⟨⟨rfl, rfl, by decide, by decide⟩,
    C7_classification_mismatch_drop [path_entry.mk ['x'] data_type.INT] 0
      (frame_view.mk ['x'] 1 (some ['a', 'b', 'c']) 3) 0
      (path_entry.mk ['x'] data_type.INT) ['a', 'b', 'c']
      rfl rfl (by decide) (by decide)⟩

/-- C9: `push_int` (whenever it succeeds) emits exactly the canonical decimal
rendering of the int32 value: a `'-'` prefix for negative values followed by
the digits of the absolute value with no leading zero (the digits evaluate
back to the absolute value); a single `'0'` for zero; and the exact bytes
`"-2147483648"` at the special-cased INT32_MIN. -/
theorem C9_push_int_canonical (v : Int)
    (hrange : -2147483648 ≤ v ∧ v ≤ 2147483647) :
    Emits (fun q => cmnd_sender.push_int q v) (intDecimal v)
    ∧ intDecimal v = (if v < 0 then ['-'] else []) ++ natDecimal v.natAbs
    ∧ (v = 0 → intDecimal v = ['0'])
    ∧ (1 ≤ v.natAbs → (natDecimal v.natAbs).head? ≠ some '0')
    ∧ decListVal (natDecimal v.natAbs) = v.natAbs
    ∧ (v = -2147483648 → intDecimal v = "-2147483648".toList) := by
  have hv : v.natAbs < 10 ^ 12 := by
    have h12 : (2147483649 : Nat) ≤ 10 ^ 12 := by norm_num
    obtain ⟨h1, h2⟩ := hrange
    omega
  refine ⟨emits_push_int v hv, rfl, ?_, ?_, decListVal_natDecimal v.natAbs, ?_⟩
  · intro h0
    subst h0
    exact intDecimal_zero
  · intro h1
    exact natDecimal_no_leading_zero v.natAbs h1
  · intro hm
    subst hm
    exact intDecimal_min

/-- Witness for C9 at `v = -12`. -/
theorem C9_witness :
    ((-2147483648 : Int) ≤ -12 ∧ (-12 : Int) ≤ 2147483647)
    ∧ (Emits (fun q => cmnd_sender.push_int q (-12)) (intDecimal (-12))
      ∧ intDecimal (-12)
          = (if (-12 : Int) < 0 then ['-'] else []) ++ natDecimal (-12 : Int).natAbs
      ∧ ((-12 : Int) = 0 → intDecimal (-12) = ['0'])
      ∧ (1 ≤ (-12 : Int).natAbs → (natDecimal (-12 : Int).natAbs).head? ≠ some '0')
      ∧ decListVal (natDecimal (-12 : Int).natAbs) = (-12 : Int).natAbs
      ∧ ((-12 : Int) = -2147483648 → intDecimal (-12) = "-2147483648".toList)) :=
  ⟨⟨by decide, by decide⟩, C9_push_int_canonical (-12) ⟨by decide, by decide⟩⟩

/-- C8 (corrected): when a matched payload holds more than 8 comma-separated
fields (of matching classified type), the handler is invoked exactly once
with count 8; for `Int` and `Float` payloads it receives the values of the
first 8 fields; for `String` payloads the in-place split hands it the first
7 fields plus one final slice running to the end of the payload, commas
included — not the 8th field alone. -/
theorem C8_csv_bounding (fields : List (List Char)) (table : List path_entry)
    (i j : Nat) (e : path_entry) (f : frame_view)
    (hff : ∀ g ∈ fields, (',' : Char) ∉ g)
    (hlen : 8 < fields.length)
    (hfm : first_match table i f.path = some (j, e))
    (hd : f.data = some (joinFields fields))
    (hdl : f.data_len ≠ 0)
    (hdet : detect_type (joinFields fields) = e.expected_type) :
    (e.expected_type = data_type.INT →
      exec_scan table i f
        = some (j, call_desc.callInt ((fields.take 8).map atoiM))
      ∧ ((fields.take 8).map atoiM).length = 8)
    ∧ (e.expected_type = data_type.FLOAT →
      exec_scan table i f
        = some (j, call_desc.callFloat ((fields.take 8).map strtofM))
      ∧ ((fields.take 8).map strtofM).length = 8)
    ∧ (e.expected_type = data_type.STRING →
      exec_scan table i f
        = some (j, call_desc.callString
            (fields.take 7 ++ [joinFields (fields.drop 7)]))
      ∧ (fields.take 7 ++ [joinFields (fields.drop 7)]).length = 8) := by
  have hmatch := exec_scan_match table i f j e (joinFields fields) hfm hd hdl hdet
  have hT8 : (fields.take 8).length = 8 := by
    rw [List.length_take]
    omega
  have hT7 : (fields.take 7).length = 7 := by
    rw [List.length_take]
    omega
  have hne : fields ≠ [] := by
    intro hc
    rw [hc] at hlen
    simp at hlen
  refine ⟨?_, ?_, ?_⟩
  · intro hexp
    have hdt : detect_type (joinFields fields) = data_type.INT := by rw [hdet, hexp]
    have hint : parse_int_csv (joinFields fields) = (fields.take 8).map atoiM := by
      unfold parse_int_csv
      rw [parse_csv_go_take8 atoiM parse_int_csv_go
        (fun c => by rw [parse_int_csv_go])
        parse_int_csv_go_ne_nil
        atoiM_append_comma fields 0 hff (by omega) (by omega)]
    refine ⟨?_, by rw [List.length_map, hT8]⟩
    rw [hmatch, hdt, hint]
  · intro hexp
    have hdt : detect_type (joinFields fields) = data_type.FLOAT := by rw [hdet, hexp]
    have hflt : parse_float_csv (joinFields fields) = (fields.take 8).map strtofM := by
      unfold parse_float_csv
      rw [parse_csv_go_take8 strtofM parse_float_csv_go
        (fun c => by rw [parse_float_csv_go])
        parse_float_csv_go_ne_nil
        strtofM_append_comma fields 0 hff (by omega) (by omega)]
    refine ⟨?_, by rw [List.length_map, hT8]⟩
    rw [hmatch, hdt, hflt]
  · intro hexp
    have hdt : detect_type (joinFields fields) = data_type.STRING := by rw [hdet, hexp]
    have hstr : (parse_string_csv (joinFields fields)).1
        = fields.take 7 ++ [joinFields (fields.drop 7)] := by
      unfold parse_string_csv
      rw [pstr_overflow fields 1 [] [] hff (by unfold MAX_CSV_ITEMS; omega)
        (by unfold MAX_CSV_ITEMS; omega)]
      show ([] : List (List Char)) ++ ([] ++ fields.headD [])
          :: ((fields.drop 1).take (MAX_CSV_ITEMS - 1 - 1)
             ++ [joinFields (fields.drop (MAX_CSV_ITEMS - 1))])
        = fields.take 7 ++ [joinFields (fields.drop 7)]
      rw [List.nil_append, List.nil_append,
        show MAX_CSV_ITEMS - 1 - 1 = 6 from rfl,
        show MAX_CSV_ITEMS - 1 = 7 from rfl,
        show fields.take 7 = fields.headD [] :: (fields.drop 1).take 6 from
          take_succ_headD fields 6 [] hne,
        List.cons_append]
    refine ⟨?_, ?_⟩
    · rw [hmatch, hdt, hstr]
    · rw [List.length_append, hT7]
      rfl

/-- Concrete values for the C8 witness: nine single-character fields. -/
def fields9 : List (List Char) :=
  [['1'], ['2'], ['3'], ['4'], ['5'], ['6'], ['7'], ['8'], ['9']]

def tableW : List path_entry := [path_entry.mk ['x'] data_type.INT]

def eW : path_entry := path_entry.mk ['x'] data_type.INT

def fW : frame_view := frame_view.mk ['x'] 1 (some (joinFields fields9)) 17

/-- Witness for C8: an `Int` route receiving nine comma-separated fields. -/
theorem C8_witness :
    ((∀ g ∈ fields9, (',' : Char) ∉ g)
      ∧ 8 < fields9.length
      ∧ first_match tableW 0 fW.path = some (0, eW)
      ∧ fW.data = some (joinFields fields9)
      ∧ fW.data_len ≠ 0
      ∧ detect_type (joinFields fields9) = eW.expected_type)
    ∧ ((eW.expected_type = data_type.INT →
        exec_scan tableW 0 fW
          = some (0, call_desc.callInt ((fields9.take 8).map atoiM))
        ∧ ((fields9.take 8).map atoiM).length = 8)
      ∧ (eW.expected_type = data_type.FLOAT →
        exec_scan tableW 0 fW
          = some (0, call_desc.callFloat ((fields9.take 8).map strtofM))
        ∧ ((fields9.take 8).map strtofM).length = 8)
      ∧ (eW.expected_type = data_type.STRING →
        exec_scan tableW 0 fW
          = some (0, call_desc.callString
              (fields9.take 7 ++ [joinFields (fields9.drop 7)]))
        ∧ (fields9.take 7 ++ [joinFields (fields9.drop 7)]).length = 8)) :=
  ⟨⟨by decide, by decide, rfl, rfl, by decide, by decide⟩,
    C8_csv_bounding fields9 tableW 0 0 eW fW
      (by decide) (by decide) rfl rfl (by decide) (by decide)⟩

/-- Counterexample to C8 as stated: a `String` route receiving ten
comma-separated fields gets 8 slices whose last is the whole remainder of
the payload (`"h,i,j"`), not the 8th field (`"h"`) alone. -/
theorem C8_counterexample :
    exec_scan [path_entry.mk ['x'] data_type.STRING] 0
        (frame_view.mk ['x'] 1
          (some ['a', ',', 'b', ',', 'c', ',', 'd', ',', 'e', ',', 'f', ',',
                 'g', ',', 'h', ',', 'i', ',', 'j']) 19)
      = some (0, call_desc.callString
          [['a'], ['b'], ['c'], ['d'], ['e'], ['f'], ['g'],
           ['h', ',', 'i', ',', 'j']])
    ∧ exec_scan [path_entry.mk ['x'] data_type.STRING] 0
        (frame_view.mk ['x'] 1
          (some ['a', ',', 'b', ',', 'c', ',', 'd', ',', 'e', ',', 'f', ',',
                 'g', ',', 'h', ',', 'i', ',', 'j']) 19)
      ≠ some (0, call_desc.callString
          [['a'], ['b'], ['c'], ['d'], ['e'], ['f'], ['g'], ['h']]) :=
  ⟨by decide, by decide⟩
